import Mathlib

/-!
# Verification of the skipper worker-manifest pipeline

A shallow embedding, in Lean 4, of the parts of the skipper repository that
the specification's testable properties talk about:

* the worker contract validator (`src/worker/contract.ts`),
* the event router (`routeWorkers`),
* the manifest codec (`encodeWorkerManifest` / `decodeWorkerManifest`),
* the GitHub-App installation-token minting runtime
  (`createGitHubAppRuntime`),
* the webhook ingestion/dispatch lambda (`handleRecord` and helpers),
* the CloudFormation deploy state machine (`deployStack`),
* the worker loader's duplicate-id check (`loadWorkers`).

JavaScript strings are embedded as `List Char` (named `Str`).  External
platform libraries the code calls (`node:zlib` gzip, base64 `Buffer`
conversions, `node:crypto` sha256, and the platform `JSON.stringify` /
`JSON.parse` pair) are not code of this repository; they are abstracted as a
`Wire` structure of primitives, and the theorems assume only the contracts
those libraries guarantee (`LawfulWire`): the compress/encode pipeline is
lossless, and base64 output and hex digests are whitespace-free and
non-degenerate.  A fully concrete, executable instance (`modelWire`) built
from a verified injective JSON encoding witnesses that the assumptions are
satisfiable and lets every theorem be evaluated on concrete inputs.
-/

/-- JavaScript strings, embedded as lists of characters. -/
abbrev Str := List Char

namespace Skipper

/-- The whitespace set recognised by JavaScript's `String.prototype.trim`
(ASCII whitespace, NBSP, the Unicode line separators and the BOM; the
remaining exotic Unicode space characters never appear in the strings this
development manipulates). -/
def isJsWs (c : Char) : Bool :=
  c.toNat == 9 || c.toNat == 10 || c.toNat == 11 || c.toNat == 12 ||
  c.toNat == 13 || c.toNat == 32 || c.toNat == 160 || c.toNat == 0x2028 ||
  c.toNat == 0x2029 || c.toNat == 0xFEFF

/-- JavaScript `String.prototype.trim`: drop leading and trailing
whitespace. -/
def jsTrim (s : Str) : Str :=
  List.rdropWhile isJsWs (List.dropWhile isJsWs s)

/-- A string with no whitespace characters is untouched by `jsTrim`. -/
theorem jsTrim_of_no_ws {s : Str} (h : ∀ c ∈ s, isJsWs c = false) :
    jsTrim s = s := by
  unfold jsTrim
  rw [List.dropWhile_eq_self_iff.mpr, List.rdropWhile_eq_self_iff.mpr]
  · intro hl
    simp [h _ (List.getLast_mem hl)]
  · intro hl
    simp only [List.get_eq_getElem]
    exact fun hp => by simpa [hp] using h _ (List.getElem_mem hl)

/-- Characters of `jsTrim s` are characters of `s`. -/
theorem mem_of_mem_jsTrim {s : Str} {c : Char} (h : c ∈ jsTrim s) : c ∈ s := by
  unfold jsTrim at h
  exact (List.dropWhile_sublist _).mem
    ((List.rdropWhile_prefix _ _).sublist.mem h)

/-- Helper: re-dropping leading whitespace after a full trim changes
nothing. -/
theorem dropWhile_rdropWhile_dropWhile (p : Char → Bool) (l : Str) :
    List.dropWhile p (List.rdropWhile p (List.dropWhile p l)) =
      List.rdropWhile p (List.dropWhile p l) := by
  rw [List.dropWhile_eq_self_iff]
  intro hl
  obtain ⟨t, ht⟩ := List.rdropWhile_prefix p (List.dropWhile p l)
  have hl' : 0 < (List.dropWhile p l).length := by
    rw [← ht, List.length_append]
    omega
  have e1 : (List.dropWhile p l)[0]? =
      some ((List.rdropWhile p (List.dropWhile p l)).get ⟨0, hl⟩) := by
    conv_lhs => rw [← ht]
    simp [List.getElem?_append, hl, List.getElem?_eq_getElem hl,
      List.getElem_append_left hl]
  have e2 : (List.dropWhile p l)[0]? =
      some ((List.dropWhile p l).get ⟨0, hl'⟩) := by
    simp [List.getElem?_eq_getElem hl']
  have hgets := Option.some_injective _ (e2.symm.trans e1)
  rw [← hgets]
  exact List.dropWhile_get_zero_not p l hl'

/-- `jsTrim` is idempotent. -/
theorem jsTrim_idem (s : Str) : jsTrim (jsTrim s) = jsTrim s := by
  unfold jsTrim
  rw [dropWhile_rdropWhile_dropWhile, List.rdropWhile_idempotent]

/-! ## JSON values

The dynamic `unknown` values the TypeScript code inspects are exactly the
values producible by the platform's `JSON.parse`, so they are embedded as a
JSON syntax tree.  Arrays and objects are separate mutual inductives (rather
than nested `List`s) so that structural recursion and induction stay
elementary.  JSON numbers are embedded as rationals: every number
`JSON.parse` yields is finite, so `Number.isFinite` checks are always true
in the model.  Objects coming out of `JSON.parse` have unique keys (a later
duplicate key overwrites the earlier one at parse time), so field lookup may
take the first match. -/

mutual

inductive Json where
  | null : Json
  | jbool (b : Bool) : Json
  | jnum (q : Rat) : Json
  | jstr (s : Str) : Json
  | jarr (elems : JsonArr) : Json
  | jobj (fields : JsonObj) : Json

inductive JsonArr where
  | nil : JsonArr
  | cons (head : Json) (tail : JsonArr) : JsonArr

inductive JsonObj where
  | nil : JsonObj
  | cons (key : Str) (val : Json) (tail : JsonObj) : JsonObj

end

namespace JsonArr

/-- View a JSON array as a Lean list. -/
def toList : JsonArr → List Json
  | .nil => []
  | .cons h t => h :: toList t

/-- Build a JSON array from a Lean list. -/
def ofList : List Json → JsonArr
  | [] => .nil
  | h :: t => .cons h (ofList t)

@[simp] theorem toList_ofList (l : List Json) : (ofList l).toList = l := by
  induction l with
  | nil => rfl
  | cons h t ih => simp [ofList, toList, ih]

/-- Length of a JSON array. -/
def length (a : JsonArr) : Nat := a.toList.length

end JsonArr

namespace JsonObj

/-- View a JSON object as an association list. -/
def entries : JsonObj → List (Str × Json)
  | .nil => []
  | .cons k v t => (k, v) :: entries t

/-- Build a JSON object from an association list. -/
def ofEntries : List (Str × Json) → JsonObj
  | [] => .nil
  | (k, v) :: t => .cons k v (ofEntries t)

@[simp] theorem entries_ofEntries (l : List (Str × Json)) :
    (ofEntries l).entries = l := by
  induction l with
  | nil => rfl
  | cons h t ih => cases h; simp [ofEntries, entries, ih]

end JsonObj

namespace Json

/-- JS `typeof value === "object" && value !== null`: arrays and plain
objects both qualify. -/
def isRecord : Json → Bool
  | .jobj _ => true
  | .jarr _ => true
  | _ => false

/-- JS `Array.isArray`. -/
def isArray : Json → Bool
  | .jarr _ => true
  | _ => false

/-- JS property access `value[key]`, totalised: `none` is `undefined`.
Property access on arrays, primitives and `null` yields `undefined` for
every key the embedded code ever reads. -/
def jsGet : Json → Str → Option Json
  | .jobj fs, key => lookupField fs key
  | _, _ => none
where
  /-- First matching field (`JSON.parse` output has unique keys). -/
  lookupField : JsonObj → Str → Option Json
  | .nil, _ => none
  | .cons k v t, key => if k = key then some v else lookupField t key

/-- JS `Object.entries`, for the values that pass `isRecord`: object fields
in insertion order; array elements keyed by their decimal index. -/
def jsEntries : Json → List (Str × Json)
  | .jobj fs => fs.entries
  | .jarr xs => (xs.toList.enum.map fun (i, v) => ((Nat.repr i).data, v))
  | _ => []

end Json

/-! ## Worker contract data model (`src/worker/contract.ts`)

The TypeScript record types, with `?` fields as `Option`.  String-union
fields (`provider`, `agent`, `mode`) are embedded as strings; the parser is
what restricts them, exactly as in the source.  `env` is an ordered
association list, mirroring a JS object's insertion-ordered entries.  The
trigger filter field is called `if` in the source; Lean reserves that word,
so the embedding names it `filter`. -/

structure WorkerMetadata where
  id : Str
  type : Str
  description : Option Str
  enabled : Option Bool
  version : Option Str
  deriving DecidableEq, Repr

structure WorkerTriggerFilter where
  repository : Option (List Str)
  baseBranches : Option (List Str)
  headBranches : Option (List Str)
  draft : Option Bool
  deriving DecidableEq, Repr

structure WorkerTrigger where
  provider : Str
  event : Str
  actions : Option (List Str)
  filter : Option WorkerTriggerFilter
  deriving DecidableEq, Repr

structure WorkerRuntime where
  agent : Option Str
  mode : Option Str
  prompt : Str
  allowPush : Option Bool
  maxDurationMinutes : Option Rat
  env : Option (List (Str × Str))
  deriving DecidableEq, Repr

structure WorkerDefinition where
  metadata : WorkerMetadata
  triggers : List WorkerTrigger
  runtime : WorkerRuntime
  deriving DecidableEq, Repr

structure WorkerManifest where
  workers : List WorkerDefinition
  deriving DecidableEq, Repr

/-! ## Worker contract validator (`src/worker/contract.ts`)

A direct translation of `parseWorkerDefinition` and its helpers.  Thrown
`Error`s become `Except.error` carrying the source's message text; `getF`
is JS property access with a literal key. -/

/-- Property access with a literal key. -/
def getF (v : Json) (key : String) : Option Json := v.jsGet key.data

/-- `readOptionalString` from `contract.ts`: absent stays absent, anything
non-string is an error, and present strings are trimmed and must be
non-empty. -/
def readOptionalString (value : Option Json) (label : Str) :
    Except Str (Option Str) :=
  match value with
  | none => .ok none
  | some (.jstr s) =>
    let normalized := jsTrim s
    if normalized = [] then .error (label ++ " must be non-empty".data)
    else .ok (some normalized)
  | some _ => .error (label ++ " must be string".data)

/-- `readNonEmptyString` from `contract.ts`. -/
def readNonEmptyString (value : Option Json) (label : Str) : Except Str Str := do
  let normalized ← readOptionalString value label
  match normalized with
  | some s => .ok s
  | none => .error (label ++ " is required".data)

/-- `readOptionalNumber` from `contract.ts`.  JSON numbers are always
finite, so the `Number.isFinite` conjunct is always true here. -/
def readOptionalNumber (value : Option Json) (label : Str) :
    Except Str (Option Rat) :=
  match value with
  | none => .ok none
  | some (.jnum q) =>
    if q ≤ 0 then .error (label ++ " must be a positive number".data)
    else .ok (some q)
  | some _ => .error (label ++ " must be a positive number".data)

/-- `readOptionalBoolean` from `contract.ts`. -/
def readOptionalBoolean (value : Option Json) (label : Str) :
    Except Str (Option Bool) :=
  match value with
  | none => .ok none
  | some (.jbool b) => .ok (some b)
  | some _ => .error (label ++ " must be boolean".data)

/-- Element loop of `readOptionalStringArray`: `value.map((entry, index) =>
readNonEmptyString(entry, label[index]))`. -/
def readStringEntries (label : Str) : List Json → Nat → Except Str (List Str)
  | [], _ => .ok []
  | e :: rest, i => do
    let s ← readNonEmptyString (some e)
      (label ++ "[".data ++ (Nat.repr i).data ++ "]".data)
    let t ← readStringEntries label rest (i + 1)
    .ok (s :: t)

/-- `readOptionalStringArray` from `contract.ts`. -/
def readOptionalStringArray (value : Option Json) (label : Str) :
    Except Str (Option (List Str)) :=
  match value with
  | none => .ok none
  | some (.jarr xs) => do
    let entries ← readStringEntries label xs.toList 0
    .ok (some entries)
  | some _ => .error (label ++ " must be string[]".data)

/-- Entry loop of `readOptionalStringRecord`: every entry value must be a
string and is passed through verbatim (no trimming). -/
def readRecordEntries (label : Str) :
    List (Str × Json) → Except Str (List (Str × Str))
  | [] => .ok []
  | (k, .jstr s) :: rest => do
    let t ← readRecordEntries label rest
    .ok ((k, s) :: t)
  | (k, _) :: _rest => .error (label ++ ".".data ++ k ++ " must be string".data)

/-- `readOptionalStringRecord` from `contract.ts`. -/
def readOptionalStringRecord (value : Option Json) (label : Str) :
    Except Str (Option (List (Str × Str))) :=
  match value with
  | none => .ok none
  | some v =>
    if v.isRecord then do
      let entries ← readRecordEntries label v.jsEntries
      .ok (some entries)
    else .error (label ++ " must be object".data)

/-- One character class of the worker-id pattern `[a-z0-9]`, with the `i`
flag: ASCII letters of either case, or a digit. -/
def isAlnumCI (c : Char) : Bool :=
  ('a' ≤ c && c ≤ 'z') || ('A' ≤ c && c ≤ 'Z') || ('0' ≤ c && c ≤ '9')

/-- The regex `/^[a-z0-9][a-z0-9-]*$/i` from `parseWorkerId`. -/
def workerIdPattern : Str → Bool
  | [] => false
  | c :: rest => isAlnumCI c && rest.all (fun d => isAlnumCI d || d = '-')

/-- `parseWorkerId` from `contract.ts`. -/
def parseWorkerId (value : Option Json) (label : Str) : Except Str Str := do
  let workerId ← readNonEmptyString value ("metadata.id in ".data ++ label)
  if workerIdPattern workerId then .ok workerId
  else .error ("invalid metadata.id in ".data ++ label)

/-- `parseMetadata` from `contract.ts`. -/
def parseMetadata (value : Option Json) (label : Str) :
    Except Str WorkerMetadata :=
  match value with
  | some v =>
    if v.isRecord then do
      let id ← parseWorkerId (getF v "id") label
      let type ← readNonEmptyString (getF v "type")
        ("metadata.type in ".data ++ label)
      let description ← readOptionalString (getF v "description")
        ("metadata.description in ".data ++ label)
      let enabled ← readOptionalBoolean (getF v "enabled")
        ("metadata.enabled in ".data ++ label)
      let version ← readOptionalString (getF v "version")
        ("metadata.version in ".data ++ label)
      .ok ⟨id, type, description, enabled, version⟩
    else .error ("missing metadata in ".data ++ label)
  | none => .error ("missing metadata in ".data ++ label)

/-- `parseTriggerFilter` from `contract.ts`. -/
def parseTriggerFilter (value : Option Json) (label : Str) :
    Except Str (Option WorkerTriggerFilter) :=
  match value with
  | none => .ok none
  | some v =>
    if v.isRecord then do
      let repository ← readOptionalStringArray (getF v "repository")
        (label ++ " if.repository".data)
      let baseBranches ← readOptionalStringArray (getF v "baseBranches")
        (label ++ " if.baseBranches".data)
      let headBranches ← readOptionalStringArray (getF v "headBranches")
        (label ++ " if.headBranches".data)
      let draft ← readOptionalBoolean (getF v "draft")
        (label ++ " if.draft".data)
      .ok (some ⟨repository, baseBranches, headBranches, draft⟩)
    else .error ("invalid if block in ".data ++ label)

/-- `parseTrigger` from `contract.ts`. -/
def parseTrigger (value : Json) (label : Str) : Except Str WorkerTrigger :=
  if value.isRecord then do
    let provider ← readNonEmptyString (getF value "provider")
      (label ++ " provider".data)
    if provider = "github".data then do
      let event ← readNonEmptyString (getF value "event")
        (label ++ " event".data)
      let actions ← readOptionalStringArray (getF value "actions")
        (label ++ " actions".data)
      let filter ← parseTriggerFilter (getF value "if") label
      .ok ⟨provider, event, actions, filter⟩
    else .error ("invalid provider in ".data ++ label)
  else .error ("invalid ".data ++ label)

/-- Element loop of `parseTriggers`: `value.map((entry, index) =>
parseTrigger(entry, label triggers[index]))`. -/
def parseTriggerList (label : Str) :
    List Json → Nat → Except Str (List WorkerTrigger)
  | [], _ => .ok []
  | e :: rest, i => do
    let t ← parseTrigger e
      (label ++ " triggers[".data ++ (Nat.repr i).data ++ "]".data)
    let ts ← parseTriggerList label rest (i + 1)
    .ok (t :: ts)

/-- `parseTriggers` from `contract.ts`: a non-empty array is required. -/
def parseTriggers (value : Option Json) (label : Str) :
    Except Str (List WorkerTrigger) :=
  match value with
  | some (.jarr xs) =>
    match xs.toList with
    | [] => .error ("missing triggers in ".data ++ label)
    | l => parseTriggerList label l 0
  | _ => .error ("missing triggers in ".data ++ label)

/-- `parseRuntimeAgent` from `contract.ts`. -/
def parseRuntimeAgent (value : Option Str) (label : Str) :
    Except Str (Option Str) :=
  match value with
  | none => .ok none
  | some v =>
    if v = "claude".data ∨ v = "opencode".data then .ok (some v)
    else .error ("invalid runtime.agent in ".data ++ label)

/-- `parseRuntimeMode` from `contract.ts`. -/
def parseRuntimeMode (value : Option Str) (label : Str) :
    Except Str (Option Str) :=
  match value with
  | none => .ok none
  | some v =>
    if v = "comment-only".data ∨ v = "apply".data then .ok (some v)
    else .error ("invalid runtime.mode in ".data ++ label)

/-- `parseRuntime` from `contract.ts`. -/
def parseRuntime (value : Option Json) (label : Str) :
    Except Str WorkerRuntime :=
  match value with
  | some v =>
    if v.isRecord then do
      let prompt ← readNonEmptyString (getF v "prompt")
        ("runtime.prompt in ".data ++ label)
      let agentValue ← readOptionalString (getF v "agent")
        ("runtime.agent in ".data ++ label)
      let modeValue ← readOptionalString (getF v "mode")
        ("runtime.mode in ".data ++ label)
      let maxDurationMinutes ← readOptionalNumber (getF v "maxDurationMinutes")
        ("runtime.maxDurationMinutes in ".data ++ label)
      let env ← readOptionalStringRecord (getF v "env")
        ("runtime.env in ".data ++ label)
      let allowPush ← readOptionalBoolean (getF v "allowPush")
        ("runtime.allowPush in ".data ++ label)
      let agent ← parseRuntimeAgent agentValue label
      let mode ← parseRuntimeMode modeValue label
      .ok ⟨agent, mode, prompt, allowPush, maxDurationMinutes, env⟩
    else .error ("missing runtime in ".data ++ label)
  | none => .error ("missing runtime in ".data ++ label)

/-- `parseWorkerDefinition` from `contract.ts`: the one public entry point.
The returned metadata defaults `enabled` to `true`. -/
def parseWorkerDefinition (value : Json) (label : Str) :
    Except Str WorkerDefinition :=
  if value.isRecord then do
    let metadata ← parseMetadata (getF value "metadata") label
    let triggers ← parseTriggers (getF value "triggers") label
    let runtime ← parseRuntime (getF value "runtime") label
    .ok ⟨{ metadata with enabled := some (metadata.enabled.getD true) },
      triggers, runtime⟩
  else .error ("invalid worker definition in ".data ++ label)

/-! ## JSON layout of a parsed manifest

`encodeWorkerManifest` serializes the in-memory manifest with
`JSON.stringify`.  The functions below give the JSON tree that stringify
sees: object fields in the insertion order of the parse functions' object
literals, with `undefined`-valued fields omitted (as stringify does). -/

/-- Object fields from a literal whose values may be `undefined`:
`JSON.stringify` omits the absent ones. -/
def optEntries (l : List (String × Option Json)) : List (Str × Json) :=
  l.filterMap (fun (k, v) => v.map (fun j => (k.data, j)))

/-- JSON tree of a parsed `WorkerMetadata`. -/
def metadataToJson (m : WorkerMetadata) : Json :=
  .jobj (JsonObj.ofEntries (optEntries [
    ("id", some (.jstr m.id)),
    ("type", some (.jstr m.type)),
    ("description", m.description.map .jstr),
    ("enabled", m.enabled.map .jbool),
    ("version", m.version.map .jstr)]))

/-- JSON tree of a string list. -/
def strListToJson (l : List Str) : Json :=
  .jarr (JsonArr.ofList (l.map .jstr))

/-- JSON tree of a parsed `WorkerTriggerFilter`. -/
def filterToJson (f : WorkerTriggerFilter) : Json :=
  .jobj (JsonObj.ofEntries (optEntries [
    ("repository", f.repository.map strListToJson),
    ("baseBranches", f.baseBranches.map strListToJson),
    ("headBranches", f.headBranches.map strListToJson),
    ("draft", f.draft.map .jbool)]))

/-- JSON tree of a parsed `WorkerTrigger` (the filter field is named `if`
on the wire). -/
def triggerToJson (t : WorkerTrigger) : Json :=
  .jobj (JsonObj.ofEntries (optEntries [
    ("provider", some (.jstr t.provider)),
    ("event", some (.jstr t.event)),
    ("actions", t.actions.map strListToJson),
    ("if", t.filter.map filterToJson)]))

/-- JSON tree of a worker `env` record. -/
def envToJson (es : List (Str × Str)) : Json :=
  .jobj (JsonObj.ofEntries (es.map (fun (k, v) => (k, Json.jstr v))))

/-- JSON tree of a parsed `WorkerRuntime`. -/
def runtimeToJson (r : WorkerRuntime) : Json :=
  .jobj (JsonObj.ofEntries (optEntries [
    ("prompt", some (.jstr r.prompt)),
    ("agent", r.agent.map .jstr),
    ("mode", r.mode.map .jstr),
    ("allowPush", r.allowPush.map .jbool),
    ("maxDurationMinutes", r.maxDurationMinutes.map .jnum),
    ("env", r.env.map envToJson)]))

/-- JSON tree of a parsed `WorkerDefinition`. -/
def workerToJson (w : WorkerDefinition) : Json :=
  .jobj (JsonObj.ofEntries (optEntries [
    ("metadata", some (metadataToJson w.metadata)),
    ("triggers", some (.jarr (JsonArr.ofList (w.triggers.map triggerToJson)))),
    ("runtime", some (runtimeToJson w.runtime))]))

/-- JSON tree of a `WorkerManifest`. -/
def manifestToJson (m : WorkerManifest) : Json :=
  .jobj (JsonObj.ofEntries
    [("workers".data, .jarr (JsonArr.ofList (m.workers.map workerToJson)))])

/-! ## Well-formed (parse-normal-form) workers

A worker definition is in parse normal form when it looks exactly like an
output of `parseWorkerDefinition`: all validated string fields are trimmed
and non-empty, the id matches the worker-id pattern, enum fields hold
allowed values, `enabled` is materialised, and `maxDurationMinutes` is
positive.  These are the "valid" definitions of the specification. -/

/-- A string equal to its own trim and non-empty. -/
def trimFixed (s : Str) : Bool := jsTrim s == s && !s.isEmpty

theorem trimFixed_iff {s : Str} :
    trimFixed s = true ↔ jsTrim s = s ∧ s ≠ [] := by
  simp [trimFixed]

/-- Absent, or trim-fixed. -/
def wfOptStr : Option Str → Bool
  | none => true
  | some s => trimFixed s

/-- Absent, or a list of trim-fixed strings. -/
def wfOptStrList : Option (List Str) → Bool
  | none => true
  | some l => l.all trimFixed

/-- Parse normal form of metadata. -/
def wfMetadata (m : WorkerMetadata) : Bool :=
  trimFixed m.id && workerIdPattern m.id && trimFixed m.type &&
  wfOptStr m.description && m.enabled.isSome && wfOptStr m.version

/-- Parse normal form of a trigger filter. -/
def wfFilter (f : WorkerTriggerFilter) : Bool :=
  wfOptStrList f.repository && wfOptStrList f.baseBranches &&
  wfOptStrList f.headBranches

/-- Parse normal form of a trigger. -/
def wfTrigger (t : WorkerTrigger) : Bool :=
  t.provider == "github".data && trimFixed t.event &&
  (match t.actions with
   | none => true
   | some l => l.all trimFixed) &&
  (match t.filter with
   | none => true
   | some f => wfFilter f)

/-- Parse normal form of a runtime. -/
def wfRuntime (r : WorkerRuntime) : Bool :=
  trimFixed r.prompt &&
  (match r.agent with
   | none => true
   | some a => a == "claude".data || a == "opencode".data) &&
  (match r.mode with
   | none => true
   | some m => m == "comment-only".data || m == "apply".data) &&
  (match r.maxDurationMinutes with
   | none => true
   | some q => decide (0 < q))

/-- Parse normal form of a worker definition. -/
def wfWorker (w : WorkerDefinition) : Bool :=
  wfMetadata w.metadata && !w.triggers.isEmpty &&
  w.triggers.all wfTrigger && wfRuntime w.runtime

/-- A valid manifest: every worker in parse normal form. -/
def wfManifest (m : WorkerManifest) : Bool := m.workers.all wfWorker

/-! ## Field lookup on serialized objects -/

theorem jsGet_optEntries_skip {k : String} {v : Option Json}
    {rest : List (String × Option Json)} {key : Str} (h : k.data ≠ key) :
    Json.jsGet (.jobj (JsonObj.ofEntries (optEntries ((k, v) :: rest)))) key =
      Json.jsGet (.jobj (JsonObj.ofEntries (optEntries rest))) key := by
  cases v with
  | none => rfl
  | some j =>
    simp [optEntries, JsonObj.ofEntries, Json.jsGet, Json.jsGet.lookupField, h]

theorem jsGet_optEntries_none {l : List (String × Option Json)} {key : Str}
    (h : ∀ s ∈ l.map Prod.fst, s.data ≠ key) :
    Json.jsGet (.jobj (JsonObj.ofEntries (optEntries l))) key = none := by
  induction l with
  | nil => rfl
  | cons e rest ih =>
    obtain ⟨k, v⟩ := e
    have hk : k.data ≠ key := h k (by simp)
    rw [jsGet_optEntries_skip hk]
    exact ih (fun s hs => h s (by simp at hs ⊢; exact Or.inr hs))

theorem jsGet_optEntries_at {k : String} {v : Option Json}
    {rest : List (String × Option Json)}
    (h : ∀ s ∈ rest.map Prod.fst, s.data ≠ k.data) :
    Json.jsGet (.jobj (JsonObj.ofEntries (optEntries ((k, v) :: rest))))
      k.data = v := by
  cases v with
  | none =>
    show Json.jsGet (.jobj (JsonObj.ofEntries (optEntries rest))) k.data = none
    exact jsGet_optEntries_none h
  | some j =>
    simp [optEntries, JsonObj.ofEntries, Json.jsGet, Json.jsGet.lookupField]

/-! ## Parse / serialize round trip on parse-normal-form values -/

/-- Reduction of `Except` do-notation on a successful step. -/
theorem bind_ok {ε α β : Type} (a : α) (f : α → Except ε β) :
    (Bind.bind (Except.ok a) f) = f a := rfl

theorem readOptionalString_opt {o : Option Str} {label : Str}
    (h : wfOptStr o = true) :
    readOptionalString (o.map .jstr) label = .ok o := by
  cases o with
  | none => rfl
  | some s =>
    obtain ⟨h1, h2⟩ := trimFixed_iff.mp (by simpa [wfOptStr] using h)
    simp [readOptionalString, h1, h2]

theorem readNonEmptyString_str {s : Str} {label : Str}
    (h : trimFixed s = true) :
    readNonEmptyString (some (.jstr s)) label = .ok s := by
  obtain ⟨h1, h2⟩ := trimFixed_iff.mp h
  simp only [readNonEmptyString, readOptionalString, h1, h2, if_neg h2]
  rfl

theorem readOptionalBoolean_opt (o : Option Bool) (label : Str) :
    readOptionalBoolean (o.map .jbool) label = .ok o := by
  cases o <;> rfl

theorem readOptionalNumber_opt {o : Option Rat} {label : Str}
    (h : ∀ q, o = some q → 0 < q) :
    readOptionalNumber (o.map .jnum) label = .ok o := by
  cases o with
  | none => rfl
  | some q => simp [readOptionalNumber, not_le.mpr (h q rfl)]

theorem readStringEntries_map {l : List Str} {label : Str}
    (h : l.all trimFixed = true) :
    ∀ i, readStringEntries label (l.map .jstr) i = .ok l := by
  induction l with
  | nil => intro i; rfl
  | cons s rest ih =>
    intro i
    simp only [List.all_cons, Bool.and_eq_true] at h
    simp only [List.map_cons, readStringEntries, readNonEmptyString_str h.1,
      ih h.2 (i + 1)]
    rfl

theorem readOptionalStringArray_opt {o : Option (List Str)} {label : Str}
    (h : wfOptStrList o = true) :
    readOptionalStringArray (o.map strListToJson) label = .ok o := by
  cases o with
  | none => rfl
  | some l =>
    simp only [Option.map_some', readOptionalStringArray, strListToJson,
      JsonArr.toList_ofList,
      readStringEntries_map (by simpa [wfOptStrList] using h) 0, bind_ok]

theorem readRecordEntries_map (es : List (Str × Str)) (label : Str) :
    readRecordEntries label (es.map (fun (k, v) => (k, Json.jstr v))) =
      .ok es := by
  induction es with
  | nil => rfl
  | cons e rest ih =>
    obtain ⟨k, v⟩ := e
    simp only [List.map_cons, readRecordEntries, ih]
    rfl

theorem readOptionalStringRecord_opt (o : Option (List (Str × Str)))
    (label : Str) :
    readOptionalStringRecord (o.map envToJson) label = .ok o := by
  cases o with
  | none => rfl
  | some es =>
    simp only [Option.map_some', readOptionalStringRecord, envToJson,
      Json.isRecord, if_true, Json.jsEntries, JsonObj.entries_ofEntries,
      readRecordEntries_map, bind_ok]

theorem parseWorkerId_str {s : Str} {label : Str} (h1 : trimFixed s = true)
    (h2 : workerIdPattern s = true) :
    parseWorkerId (some (.jstr s)) label = .ok s := by
  simp only [parseWorkerId, readNonEmptyString_str h1, bind_ok]
  simp [h2]

theorem parseMetadata_toJson {m : WorkerMetadata} (h : wfMetadata m = true) :
    ∀ label, parseMetadata (some (metadataToJson m)) label = .ok m := by
  intro label
  simp only [wfMetadata, Bool.and_eq_true] at h
  obtain ⟨⟨⟨⟨⟨hid, hpat⟩, hty⟩, hdesc⟩, _hen⟩, hver⟩ := h
  have g1 : getF (metadataToJson m) "id" = some (.jstr m.id) := by
    unfold getF metadataToJson
    exact jsGet_optEntries_at (fun s hs => by
      have : s = "type" ∨ s = "description" ∨ s = "enabled" ∨ s = "version" :=
        by simpa using hs
      rcases this with rfl | rfl | rfl | rfl <;> decide)
  have g2 : getF (metadataToJson m) "type" = some (.jstr m.type) := by
    unfold getF metadataToJson
    rw [jsGet_optEntries_skip (by decide)]
    exact jsGet_optEntries_at (fun s hs => by
      have : s = "description" ∨ s = "enabled" ∨ s = "version" :=
        by simpa using hs
      rcases this with rfl | rfl | rfl <;> decide)
  have g3 : getF (metadataToJson m) "description" = m.description.map .jstr := by
    unfold getF metadataToJson
    rw [jsGet_optEntries_skip (by decide), jsGet_optEntries_skip (by decide)]
    exact jsGet_optEntries_at (fun s hs => by
      have : s = "enabled" ∨ s = "version" := by simpa using hs
      rcases this with rfl | rfl <;> decide)
  have g4 : getF (metadataToJson m) "enabled" = m.enabled.map .jbool := by
    unfold getF metadataToJson
    rw [jsGet_optEntries_skip (by decide), jsGet_optEntries_skip (by decide),
      jsGet_optEntries_skip (by decide)]
    exact jsGet_optEntries_at (fun s hs => by
      have : s = "version" := by simpa using hs
      subst this; decide)
  have g5 : getF (metadataToJson m) "version" = m.version.map .jstr := by
    unfold getF metadataToJson
    rw [jsGet_optEntries_skip (by decide), jsGet_optEntries_skip (by decide),
      jsGet_optEntries_skip (by decide), jsGet_optEntries_skip (by decide)]
    exact jsGet_optEntries_at (fun s hs => by simp at hs)
  simp only [parseMetadata]
  rw [show (metadataToJson m).isRecord = true from rfl]
  simp only [if_true, g1, g2, g3, g4, g5, parseWorkerId_str hid hpat,
    readNonEmptyString_str hty, readOptionalString_opt hdesc,
    readOptionalString_opt hver, readOptionalBoolean_opt]
  rfl

theorem parseTriggerFilter_toJson {f : WorkerTriggerFilter}
    (h : wfFilter f = true) :
    ∀ label, parseTriggerFilter (some (filterToJson f)) label = .ok (some f) := by
  intro label
  simp only [wfFilter, Bool.and_eq_true] at h
  obtain ⟨⟨hrep, hbase⟩, hhead⟩ := h
  have g1 : getF (filterToJson f) "repository" = f.repository.map strListToJson := by
    unfold getF filterToJson
    exact jsGet_optEntries_at (fun s hs => by
      have : s = "baseBranches" ∨ s = "headBranches" ∨ s = "draft" :=
        by simpa using hs
      rcases this with rfl | rfl | rfl <;> decide)
  have g2 : getF (filterToJson f) "baseBranches" =
      f.baseBranches.map strListToJson := by
    unfold getF filterToJson
    rw [jsGet_optEntries_skip (by decide)]
    exact jsGet_optEntries_at (fun s hs => by
      have : s = "headBranches" ∨ s = "draft" := by simpa using hs
      rcases this with rfl | rfl <;> decide)
  have g3 : getF (filterToJson f) "headBranches" =
      f.headBranches.map strListToJson := by
    unfold getF filterToJson
    rw [jsGet_optEntries_skip (by decide), jsGet_optEntries_skip (by decide)]
    exact jsGet_optEntries_at (fun s hs => by
      have : s = "draft" := by simpa using hs
      subst this; decide)
  have g4 : getF (filterToJson f) "draft" = f.draft.map .jbool := by
    unfold getF filterToJson
    rw [jsGet_optEntries_skip (by decide), jsGet_optEntries_skip (by decide),
      jsGet_optEntries_skip (by decide)]
    exact jsGet_optEntries_at (fun s hs => by simp at hs)
  simp only [parseTriggerFilter]
  rw [show (filterToJson f).isRecord = true from rfl]
  simp only [if_true, g1, g2, g3, g4, readOptionalStringArray_opt hrep,
    readOptionalStringArray_opt hbase, readOptionalStringArray_opt hhead,
    readOptionalBoolean_opt, bind_ok]

theorem parseTrigger_toJson {t : WorkerTrigger} (h : wfTrigger t = true) :
    ∀ label, parseTrigger (triggerToJson t) label = .ok t := by
  intro label
  simp only [wfTrigger, Bool.and_eq_true, beq_iff_eq] at h
  obtain ⟨⟨⟨hprov, hev⟩, hact⟩, hfil⟩ := h
  have g1 : getF (triggerToJson t) "provider" = some (.jstr t.provider) := by
    unfold getF triggerToJson
    exact jsGet_optEntries_at (fun s hs => by
      have : s = "event" ∨ s = "actions" ∨ s = "if" := by simpa using hs
      rcases this with rfl | rfl | rfl <;> decide)
  have g2 : getF (triggerToJson t) "event" = some (.jstr t.event) := by
    unfold getF triggerToJson
    rw [jsGet_optEntries_skip (by decide)]
    exact jsGet_optEntries_at (fun s hs => by
      have : s = "actions" ∨ s = "if" := by simpa using hs
      rcases this with rfl | rfl <;> decide)
  have g3 : getF (triggerToJson t) "actions" = t.actions.map strListToJson := by
    unfold getF triggerToJson
    rw [jsGet_optEntries_skip (by decide), jsGet_optEntries_skip (by decide)]
    exact jsGet_optEntries_at (fun s hs => by
      have : s = "if" := by simpa using hs
      subst this; decide)
  have g4 : getF (triggerToJson t) "if" = t.filter.map filterToJson := by
    unfold getF triggerToJson
    rw [jsGet_optEntries_skip (by decide), jsGet_optEntries_skip (by decide),
      jsGet_optEntries_skip (by decide)]
    exact jsGet_optEntries_at (fun s hs => by simp at hs)
  have hprovTrim : trimFixed t.provider = true := by rw [hprov]; decide
  have hfilter : parseTriggerFilter (t.filter.map filterToJson) label =
      .ok t.filter := by
    cases hf : t.filter with
    | none => rfl
    | some f =>
      rw [hf] at hfil
      exact parseTriggerFilter_toJson hfil label
  have hactions : readOptionalStringArray (t.actions.map strListToJson)
      (label ++ " actions".data) = .ok t.actions := by
    apply readOptionalStringArray_opt
    cases ha : t.actions with
    | none => rfl
    | some l => rw [ha] at hact; simpa [wfOptStrList] using hact
  simp only [parseTrigger]
  rw [show (triggerToJson t).isRecord = true from rfl]
  simp only [if_true, g1, g2, g3, g4, readNonEmptyString_str hprovTrim, bind_ok]
  rw [if_pos hprov]
  simp only [readNonEmptyString_str hev, hactions, hfilter, bind_ok]

theorem parseTriggerList_toJson {ts : List WorkerTrigger} {label : Str}
    (h : ts.all wfTrigger = true) :
    ∀ i, parseTriggerList label (ts.map triggerToJson) i = .ok ts := by
  induction ts with
  | nil => intro i; rfl
  | cons t rest ih =>
    intro i
    simp only [List.all_cons, Bool.and_eq_true] at h
    simp only [List.map_cons, parseTriggerList, parseTrigger_toJson h.1,
      ih h.2 (i + 1), bind_ok]

theorem parseRuntime_toJson {r : WorkerRuntime} (h : wfRuntime r = true) :
    ∀ label, parseRuntime (some (runtimeToJson r)) label = .ok r := by
  intro label
  simp only [wfRuntime, Bool.and_eq_true] at h
  obtain ⟨⟨⟨hprompt, hagent⟩, hmode⟩, hdur⟩ := h
  have g1 : getF (runtimeToJson r) "prompt" = some (.jstr r.prompt) := by
    unfold getF runtimeToJson
    exact jsGet_optEntries_at (fun s hs => by
      have : s = "agent" ∨ s = "mode" ∨ s = "allowPush" ∨
          s = "maxDurationMinutes" ∨ s = "env" := by simpa using hs
      rcases this with rfl | rfl | rfl | rfl | rfl <;> decide)
  have g2 : getF (runtimeToJson r) "agent" = r.agent.map .jstr := by
    unfold getF runtimeToJson
    rw [jsGet_optEntries_skip (by decide)]
    exact jsGet_optEntries_at (fun s hs => by
      have : s = "mode" ∨ s = "allowPush" ∨ s = "maxDurationMinutes" ∨
          s = "env" := by simpa using hs
      rcases this with rfl | rfl | rfl | rfl <;> decide)
  have g3 : getF (runtimeToJson r) "mode" = r.mode.map .jstr := by
    unfold getF runtimeToJson
    rw [jsGet_optEntries_skip (by decide), jsGet_optEntries_skip (by decide)]
    exact jsGet_optEntries_at (fun s hs => by
      have : s = "allowPush" ∨ s = "maxDurationMinutes" ∨ s = "env" :=
        by simpa using hs
      rcases this with rfl | rfl | rfl <;> decide)
  have g4 : getF (runtimeToJson r) "allowPush" = r.allowPush.map .jbool := by
    unfold getF runtimeToJson
    rw [jsGet_optEntries_skip (by decide), jsGet_optEntries_skip (by decide),
      jsGet_optEntries_skip (by decide)]
    exact jsGet_optEntries_at (fun s hs => by
      have : s = "maxDurationMinutes" ∨ s = "env" := by simpa using hs
      rcases this with rfl | rfl <;> decide)
  have g5 : getF (runtimeToJson r) "maxDurationMinutes" =
      r.maxDurationMinutes.map .jnum := by
    unfold getF runtimeToJson
    rw [jsGet_optEntries_skip (by decide), jsGet_optEntries_skip (by decide),
      jsGet_optEntries_skip (by decide), jsGet_optEntries_skip (by decide)]
    exact jsGet_optEntries_at (fun s hs => by
      have : s = "env" := by simpa using hs
      subst this; decide)
  have g6 : getF (runtimeToJson r) "env" = r.env.map envToJson := by
    unfold getF runtimeToJson
    rw [jsGet_optEntries_skip (by decide), jsGet_optEntries_skip (by decide),
      jsGet_optEntries_skip (by decide), jsGet_optEntries_skip (by decide),
      jsGet_optEntries_skip (by decide)]
    exact jsGet_optEntries_at (fun s hs => by simp at hs)
  have hagentStr : readOptionalString (r.agent.map .jstr)
      ("runtime.agent in ".data ++ label) = .ok r.agent := by
    apply readOptionalString_opt
    cases ha : r.agent with
    | none => rfl
    | some a =>
      rw [ha] at hagent
      simp only [beq_iff_eq, Bool.or_eq_true] at hagent
      rcases hagent with rfl | rfl <;> decide
  have hmodeStr : readOptionalString (r.mode.map .jstr)
      ("runtime.mode in ".data ++ label) = .ok r.mode := by
    apply readOptionalString_opt
    cases hm : r.mode with
    | none => rfl
    | some a =>
      rw [hm] at hmode
      simp only [beq_iff_eq, Bool.or_eq_true] at hmode
      rcases hmode with rfl | rfl <;> decide
  have hagent' : parseRuntimeAgent r.agent label = .ok r.agent := by
    cases ha : r.agent with
    | none => rfl
    | some a =>
      rw [ha] at hagent
      simp only [beq_iff_eq, Bool.or_eq_true] at hagent
      simp [parseRuntimeAgent, hagent]
  have hmode' : parseRuntimeMode r.mode label = .ok r.mode := by
    cases hm : r.mode with
    | none => rfl
    | some a =>
      rw [hm] at hmode
      simp only [beq_iff_eq, Bool.or_eq_true] at hmode
      simp [parseRuntimeMode, hmode]
  have hdur' : ∀ q, r.maxDurationMinutes = some q → 0 < q := by
    intro q hq
    rw [hq] at hdur
    simpa using hdur
  simp only [parseRuntime]
  rw [show (runtimeToJson r).isRecord = true from rfl]
  simp only [if_true, g1, g2, g3, g4, g5, g6,
    readNonEmptyString_str hprompt, hagentStr, hmodeStr,
    readOptionalNumber_opt hdur', readOptionalStringRecord_opt,
    readOptionalBoolean_opt, hagent', hmode', bind_ok]

theorem parseWorkerDefinition_toJson {w : WorkerDefinition}
    (h : wfWorker w = true) :
    ∀ label, parseWorkerDefinition (workerToJson w) label = .ok w := by
  intro label
  simp only [wfWorker, Bool.and_eq_true] at h
  obtain ⟨⟨⟨hmeta, hne⟩, htrig⟩, hrt⟩ := h
  have g1 : getF (workerToJson w) "metadata" = some (metadataToJson w.metadata) := by
    unfold getF workerToJson
    exact jsGet_optEntries_at (fun s hs => by
      have : s = "triggers" ∨ s = "runtime" := by simpa using hs
      rcases this with rfl | rfl <;> decide)
  have g2 : getF (workerToJson w) "triggers" =
      some (.jarr (JsonArr.ofList (w.triggers.map triggerToJson))) := by
    unfold getF workerToJson
    rw [jsGet_optEntries_skip (by decide)]
    exact jsGet_optEntries_at (fun s hs => by
      have : s = "runtime" := by simpa using hs
      subst this; decide)
  have g3 : getF (workerToJson w) "runtime" = some (runtimeToJson w.runtime) := by
    unfold getF workerToJson
    rw [jsGet_optEntries_skip (by decide), jsGet_optEntries_skip (by decide)]
    exact jsGet_optEntries_at (fun s hs => by simp at hs)
  have htrig' : parseTriggers
      (some (.jarr (JsonArr.ofList (w.triggers.map triggerToJson)))) label =
      .ok w.triggers := by
    cases ht : w.triggers with
    | nil => rw [ht] at hne; simp at hne
    | cons t rest =>
      simp only [parseTriggers, JsonArr.toList_ofList, List.map_cons]
      rw [← List.map_cons triggerToJson t rest]
      rw [← ht]
      exact parseTriggerList_toJson htrig 0
  have hen : w.metadata.enabled.isSome = true := by
    have h2 := hmeta
    simp only [wfMetadata, Bool.and_eq_true] at h2
    exact h2.1.2
  obtain ⟨b, hb⟩ := Option.isSome_iff_exists.mp hen
  simp only [parseWorkerDefinition]
  rw [show (workerToJson w).isRecord = true from rfl]
  simp only [if_true, g1, g2, g3, parseMetadata_toJson hmeta,
    htrig', parseRuntime_toJson hrt, bind_ok]
  obtain ⟨⟨mid, mty, md, me, mv⟩, trig, rt⟩ := w
  simp only at hb
  rw [hb]
  rfl

/-! ## Transport parameters (`aws-params.ts`)

The key/value parameter store is embedded as a partial map
`Str → Option Str`; `decodeWorkerManifest` only ever reads it at fixed
keys, and `encodeWorkerManifest` builds it by successive writes. -/

def WORKER_SCHEMA_VERSION : Str := "1".data

def WORKER_CHUNK_COUNT : Nat := 12

def WORKER_CHUNK_SIZE : Nat := 3500

def WORKERS_ENCODING_PARAM : Str := "WorkersEncoding".data

def WORKERS_SHA256_PARAM : Str := "WorkersSha256".data

def WORKERS_SCHEMA_VERSION_PARAM : Str := "WorkersSchemaVersion".data

def WORKERS_CHUNK_COUNT_PARAM : Str := "WorkersChunkCount".data

def WORKERS_ENCODING : Str := "gzip-base64-v1".data

/-- `String.prototype.padStart(2, "0")`. -/
def padStart2 (s : Str) : Str :=
  if 2 ≤ s.length then s else List.replicate (2 - s.length) '0' ++ s

/-- `getWorkerChunkParameterKey`: `WorkersChunk` + zero-padded index. -/
def getWorkerChunkParameterKey (index : Nat) : Str :=
  "WorkersChunk".data ++ padStart2 (Nat.repr index).data

/-- `listWorkerChunkParameterKeys`. -/
def listWorkerChunkParameterKeys (count : Nat) : List Str :=
  (List.range count).map getWorkerChunkParameterKey

/-- The key/value parameter map. -/
def Params := Str → Option Str

/-- Write one key (JS object property assignment). -/
def setParam (values : Params) (key v : Str) : Params :=
  fun q => if q = key then some v else values q

/-- `createDefaultWorkerParameterValues`. -/
def createDefaultWorkerParameterValues (count : Nat) : Params :=
  let values : Params :=
    setParam (setParam (setParam (setParam (fun _ => none)
      WORKERS_ENCODING_PARAM []) WORKERS_SHA256_PARAM [])
      WORKERS_SCHEMA_VERSION_PARAM WORKER_SCHEMA_VERSION)
      WORKERS_CHUNK_COUNT_PARAM "0".data
  (listWorkerChunkParameterKeys count).foldl
    (fun acc key => setParam acc key []) values

/-! ## Manifest codec (`serialize.ts` side of `interactive.ts`) -/

/-- Decimal digit-run value for `parseInt`. -/
def digitsVal (s : Str) : Option Nat :=
  let ds := s.takeWhile (fun c => '0' ≤ c && c ≤ '9')
  if ds = [] then none
  else some (ds.foldl (fun acc c => acc * 10 + (c.toNat - 48)) 0)

/-- JS `Number.parseInt(value, 10)`: skip whitespace, optional sign, then a
non-empty digit run; `none` is `NaN`.  Trailing garbage is ignored. -/
def jsParseInt (s : Str) : Option Int :=
  let t := s.dropWhile (fun c => isJsWs c)
  match t with
  | '-' :: rest => (digitsVal rest).map (fun n => -(n : Int))
  | '+' :: rest => (digitsVal rest).map (fun n => (n : Int))
  | _ => (digitsVal t).map (fun n => (n : Int))

/-- `readChunkCount`: a missing or empty (falsy) value is 0; otherwise the
parsed value must lie in `[0, WORKER_CHUNK_COUNT]`. -/
def readChunkCount (value : Option Str) : Except Str Nat :=
  match value with
  | none => .ok 0
  | some v =>
    if v = [] then .ok 0
    else
      match jsParseInt v with
      | none => .error "invalid worker chunk count".data
      | some n =>
        if n < 0 ∨ (WORKER_CHUNK_COUNT : Int) < n then
          .error "invalid worker chunk count".data
        else .ok n.toNat

/-- Offset loop of `chunkValue`, structurally recursive on a fuel that the
caller sets to the input length; since the chunk size is positive the fuel
is never exhausted before the input is, so the `[v]` fallback arm is
unreachable. -/
def chunkAux : Nat → Str → List Str
  | _, [] => []
  | 0, v => [v]
  | fuel + 1, v =>
    v.take WORKER_CHUNK_SIZE :: chunkAux fuel (v.drop WORKER_CHUNK_SIZE)

/-- `chunkValue`, specialised to the one call site's chunk size
`WORKER_CHUNK_SIZE` (the source's loop would not terminate on a zero chunk
size, and is never called with one). -/
def chunkValue (value : Str) : List Str := chunkAux value.length value

/-- The external wire primitives the codec calls: platform JSON, zlib gzip,
base64 `Buffer` conversions, and the sha256 hex digest.  These are library
code, not part of this repository; the codec is parametric in them. -/
structure Wire where
  stringify : Json → Str
  parseJsonStr : Str → Option Json
  gzip : Str → Str
  gunzip : Str → Except Str Str
  b64enc : Str → Str
  b64dec : Str → Str
  sha256Hex : Str → Str

/-- The contracts the real platform libraries provide, stated for the
compositions the codec actually uses: the stringify→gzip→base64 pipeline
inverts, its output is non-empty (a gzip frame is never empty) and contains
no whitespace (base64 alphabet), `JSON.parse` inverts `JSON.stringify`, and
sha256 hex digests are whitespace-free with at least two characters (the
real ones have 64). -/
structure LawfulWire (P : Wire) : Prop where
  parse_stringify : ∀ j, P.parseJsonStr (P.stringify j) = some j
  pipeline_roundtrip : ∀ j,
    P.gunzip (P.b64dec (P.b64enc (P.gzip (P.stringify j)))) =
      .ok (P.stringify j)
  encoded_no_ws : ∀ j c, c ∈ P.b64enc (P.gzip (P.stringify j)) →
    isJsWs c = false
  encoded_ne : ∀ j, P.b64enc (P.gzip (P.stringify j)) ≠ []
  sha_no_ws : ∀ s c, c ∈ P.sha256Hex s → isJsWs c = false
  sha_len : ∀ s, 2 ≤ (P.sha256Hex s).length

/-- `parseUnknownJson` from `parse-json.ts`: a JSON parse failure becomes
`invalid JSON for ctx`. -/
def parseUnknownJson (P : Wire) (raw : Str) (ctx : String) : Except Str Json :=
  match P.parseJsonStr raw with
  | some j => .ok j
  | none => .error ("invalid JSON for ".data ++ ctx.data)

/-- Element loop of `parseWorkerManifestJson`:
`parsed.workers.map((worker, index) => parseWorkerDefinition(worker,
manifest worker[index]))`. -/
def parseManifestWorkers : List Json → Nat → Except Str (List WorkerDefinition)
  | [], _ => .ok []
  | w :: rest, i => do
    let d ← parseWorkerDefinition w
      ("manifest worker[".data ++ (Nat.repr i).data ++ "]".data)
    let ds ← parseManifestWorkers rest (i + 1)
    .ok (d :: ds)

/-- `parseWorkerManifestJson` from `serialize.ts`. -/
def parseWorkerManifestJson (P : Wire) (value : Str) :
    Except Str WorkerManifest := do
  let parsed ← parseUnknownJson P value "worker manifest"
  if parsed.isRecord then
    match getF parsed "workers" with
    | some (.jarr xs) => do
      let workers ← parseManifestWorkers xs.toList 0
      .ok ⟨workers⟩
    | _ => .error "invalid worker manifest".data
  else .error "invalid worker manifest".data

/-- `SerializedWorkers` from `serialize.ts`. -/
structure SerializedWorkers where
  parameterValues : Params
  byteLength : Nat
  workerCount : Nat

/-- Chunk-writing loop of `encodeWorkerManifest`: the source iterates the
index over `chunks`, so the loop recurses structurally on the remaining
chunks while reading `keys[index]` with the source's falsy-key guard (the
`chunk === undefined` guard cannot fire, since the loop bound is
`chunks.length`). -/
def writeChunks (keys : List Str) : List Str → Nat → Params → Except Str Params
  | [], _, pv => .ok pv
  | chunk :: rest, index, pv =>
    match keys[index]? with
    | none =>
      .error ("missing worker chunk key for index ".data ++
        (Nat.repr index).data)
    | some key =>
      if key = [] then
        .error ("missing worker chunk key for index ".data ++
          (Nat.repr index).data)
      else writeChunks keys rest (index + 1) (setParam pv key chunk)

/-- `encodeWorkerManifest` from `serialize.ts`. -/
def encodeWorkerManifest (P : Wire) (manifest : WorkerManifest) :
    Except Str SerializedWorkers :=
  match manifest.workers with
  | [] =>
    .ok ⟨createDefaultWorkerParameterValues WORKER_CHUNK_COUNT, 0, 0⟩
  | _ =>
    let serializedJson := P.stringify (manifestToJson manifest)
    let compressed := P.gzip serializedJson
    let encoded := P.b64enc compressed
    let chunks := chunkValue encoded
    if WORKER_CHUNK_COUNT < chunks.length then
      .error ("worker manifest too large: ".data ++
        (Nat.repr chunks.length).data ++ " chunks > ".data ++
        (Nat.repr WORKER_CHUNK_COUNT).data)
    else do
      let pv0 := createDefaultWorkerParameterValues WORKER_CHUNK_COUNT
      let pv1 := setParam pv0 WORKERS_ENCODING_PARAM WORKERS_ENCODING
      let pv2 := setParam pv1 WORKERS_SCHEMA_VERSION_PARAM WORKER_SCHEMA_VERSION
      let pv3 := setParam pv2 WORKERS_SHA256_PARAM (P.sha256Hex serializedJson)
      let pv4 := setParam pv3 WORKERS_CHUNK_COUNT_PARAM (Nat.repr chunks.length).data
      let pv ← writeChunks (listWorkerChunkParameterKeys WORKER_CHUNK_COUNT)
        chunks 0 pv4
      .ok ⟨pv, serializedJson.length, manifest.workers.length⟩

/-- `decodeWorkerManifest` from `serialize.ts`. -/
def decodeWorkerManifest (P : Wire) (parameterValues : Params) :
    Except Str (Option WorkerManifest) := do
  let chunkCount ← readChunkCount (parameterValues WORKERS_CHUNK_COUNT_PARAM)
  let sha := match parameterValues WORKERS_SHA256_PARAM with
    | some v => jsTrim v
    | none => []
  if chunkCount = 0 ∨ sha = [] then .ok none
  else
    let encoding := (parameterValues WORKERS_ENCODING_PARAM).map jsTrim
    if encoding ≠ some WORKERS_ENCODING then
      .error ("unsupported workers encoding: ".data ++ encoding.getD [])
    else
      let schemaVersion :=
        (parameterValues WORKERS_SCHEMA_VERSION_PARAM).map jsTrim
      if schemaVersion ≠ some WORKER_SCHEMA_VERSION then
        .error ("unsupported workers schema version: ".data ++
          schemaVersion.getD [])
      else
        let keys := listWorkerChunkParameterKeys WORKER_CHUNK_COUNT
        let encoded := ((keys.take chunkCount).map
          (fun key => match parameterValues key with
            | some v => jsTrim v
            | none => [])).flatten
        if encoded = [] then .error "worker chunks missing".data
        else do
          let compressed := P.b64dec encoded
          let json ← P.gunzip compressed
          let parsed ← parseWorkerManifestJson P json
          let actualSha := P.sha256Hex json
          if actualSha ≠ sha then
            .error "worker manifest checksum mismatch".data
          else .ok (some parsed)

/-! ## Codec round-trip lemmas -/

theorem setParam_same (m : Params) (k v : Str) : setParam m k v k = some v := by
  simp [setParam]

theorem setParam_other (m : Params) (k v q : Str) (h : q ≠ k) :
    setParam m k v q = m q := by
  simp [setParam, h]

theorem chunkAux_flatten : ∀ (fuel : Nat) (v : Str),
    (chunkAux fuel v).flatten = v := by
  intro fuel
  induction fuel with
  | zero =>
    intro v
    cases v <;> simp [chunkAux]
  | succ fuel ih =>
    intro v
    cases v with
    | nil => rfl
    | cons c t =>
      simp only [chunkAux, List.flatten_cons, ih, List.take_append_drop]

theorem chunkValue_flatten (v : Str) : (chunkValue v).flatten = v :=
  chunkAux_flatten v.length v

theorem chunkValue_ne_nil {v : Str} (h : v ≠ []) : chunkValue v ≠ [] := by
  unfold chunkValue
  cases hv : v with
  | nil => exact absurd hv h
  | cons c t =>
    cases hl : (c :: t).length <;> simp [chunkAux]

theorem chunkAux_mem : ∀ (fuel : Nat) {v chunk : Str} {c : Char},
    chunk ∈ chunkAux fuel v → c ∈ chunk → c ∈ v := by
  intro fuel
  induction fuel with
  | zero =>
    intro v chunk c h1 h2
    cases v with
    | nil => simp [chunkAux] at h1
    | cons a t =>
      simp only [chunkAux, List.mem_singleton] at h1
      exact h1 ▸ h2
  | succ fuel ih =>
    intro v chunk c h1 h2
    cases v with
    | nil => simp [chunkAux] at h1
    | cons a t =>
      simp only [chunkAux] at h1
      rcases List.mem_cons.mp h1 with rfl | hmem
      · exact List.mem_of_mem_take h2
      · exact List.mem_of_mem_drop (ih hmem h2)

theorem chunkValue_mem {v : Str} {chunk : Str} {c : Char}
    (h1 : chunk ∈ chunkValue v) (h2 : c ∈ chunk) : c ∈ v :=
  chunkAux_mem v.length h1 h2

/-- Writing a list of key/chunk pairs left to right. -/
def writePairs (pv : Params) (l : List (Str × Str)) : Params :=
  l.foldl (fun acc e => setParam acc e.1 e.2) pv

theorem writePairs_not_mem {l : List (Str × Str)} {q : Str}
    (h : ∀ e ∈ l, e.1 ≠ q) (pv : Params) : writePairs pv l q = pv q := by
  induction l generalizing pv with
  | nil => rfl
  | cons e rest ih =>
    rw [writePairs, List.foldl_cons]
    rw [show List.foldl (fun acc e => setParam acc e.1 e.2)
      (setParam pv e.1 e.2) rest = writePairs (setParam pv e.1 e.2) rest
      from rfl]
    rw [ih (fun e he => h e (List.mem_cons_of_mem _ he))]
    exact setParam_other _ _ _ _ (Ne.symm (h e (List.mem_cons_self _ _)))

theorem writePairs_mem {l : List (Str × Str)} {k c : Str}
    (hnd : (l.map Prod.fst).Nodup) (hmem : (k, c) ∈ l) (pv : Params) :
    writePairs pv l k = some c := by
  induction l generalizing pv with
  | nil => cases hmem
  | cons e rest ih =>
    rw [writePairs, List.foldl_cons]
    rw [show List.foldl (fun acc e => setParam acc e.1 e.2)
      (setParam pv e.1 e.2) rest = writePairs (setParam pv e.1 e.2) rest
      from rfl]
    rw [List.map_cons, List.nodup_cons] at hnd
    rcases List.mem_cons.mp hmem with heq | hmem'
    · cases heq
      rw [writePairs_not_mem (fun e' he' hq => ?_) _]
      · exact setParam_same _ _ _
      · have : e'.1 ∈ rest.map Prod.fst := List.mem_map_of_mem _ he'
        exact hnd.1 (hq ▸ this)
    · exact ih hnd.2 hmem' (setParam pv e.1 e.2)

theorem writeChunks_eq (keys : List Str) (hne : ∀ k ∈ keys, k ≠ []) :
    ∀ (chunks : List Str) (index : Nat) (pv : Params),
      index + chunks.length ≤ keys.length →
      writeChunks keys chunks index pv =
        .ok (writePairs pv ((keys.drop index).zip chunks)) := by
  intro chunks
  induction chunks with
  | nil =>
    intro index pv _
    simp [writeChunks, writePairs]
  | cons chunk rest ih =>
    intro index pv hlen
    have hik : index < keys.length := by
      simp only [List.length_cons] at hlen
      omega
    rw [writeChunks]
    simp only [List.getElem?_eq_getElem hik,
      if_neg (hne _ (List.getElem_mem hik))]
    rw [ih (index + 1) (setParam pv keys[index] chunk)
      (by simp only [List.length_cons] at hlen; omega)]
    congr 1
    have hdrop : keys.drop index = keys[index] :: keys.drop (index + 1) :=
      List.drop_eq_getElem_cons hik
    rw [hdrop]
    rfl

theorem readChunkCount_repr : ∀ n < 13,
    readChunkCount (some (Nat.repr n).data) = .ok n := by
  intro n hn
  interval_cases n <;> rfl

theorem zip_map_fst_take {α β : Type} (l₁ : List α) (l₂ : List β) :
    (l₁.zip l₂).map Prod.fst = l₁.take l₂.length := by
  induction l₁ generalizing l₂ with
  | nil => simp
  | cons a t ih =>
    cases l₂ with
    | nil => simp
    | cons b t₂ => simp [ih]

theorem parseManifestWorkers_toJson {ws : List WorkerDefinition}
    (h : ws.all wfWorker = true) :
    ∀ i, parseManifestWorkers (ws.map workerToJson) i = .ok ws := by
  induction ws with
  | nil => intro i; rfl
  | cons w rest ih =>
    intro i
    simp only [List.all_cons, Bool.and_eq_true] at h
    simp only [List.map_cons, parseManifestWorkers,
      parseWorkerDefinition_toJson h.1, ih h.2 (i + 1), bind_ok]

theorem parseWorkerManifestJson_stringify (P : Wire) (hP : LawfulWire P)
    {m : WorkerManifest} (hwf : wfManifest m = true) :
    parseWorkerManifestJson P (P.stringify (manifestToJson m)) = .ok m := by
  simp only [parseWorkerManifestJson, parseUnknownJson, hP.parse_stringify,
    bind_ok]
  rw [show (manifestToJson m).isRecord = true from rfl]
  rw [show getF (manifestToJson m) "workers" =
    some (.jarr (JsonArr.ofList (m.workers.map workerToJson))) from rfl]
  simp only [if_true, JsonArr.toList_ofList,
    parseManifestWorkers_toJson hwf 0, bind_ok]

/-- The central codec fact: for a non-empty parse-normal-form manifest
within the chunk budget, encoding succeeds and decoding its parameter
values returns the manifest, for every lawful wire. -/
theorem decodeWorkerManifest_encodeWorkerManifest (P : Wire)
    (hP : LawfulWire P) (m : WorkerManifest) (hwf : wfManifest m = true)
    (hne : m.workers ≠ [])
    (hsize : (chunkValue (P.b64enc (P.gzip (P.stringify (manifestToJson m))))).length ≤
      WORKER_CHUNK_COUNT) :
    ∃ sw, encodeWorkerManifest P m = .ok sw ∧
      decodeWorkerManifest P sw.parameterValues = .ok (some m) ∧
      ∀ sha' : Str, jsTrim sha' ≠ [] →
        decodeWorkerManifest P
            (setParam sw.parameterValues WORKERS_SHA256_PARAM sha') =
          if P.sha256Hex (P.stringify (manifestToJson m)) = jsTrim sha'
          then .ok (some m)
          else .error "worker manifest checksum mismatch".data := by
  have hkeyCount : (listWorkerChunkParameterKeys WORKER_CHUNK_COUNT).length =
      12 := by
    simp [listWorkerChunkParameterKeys, WORKER_CHUNK_COUNT]
  set sj := P.stringify (manifestToJson m) with hsj
  set encoded := P.b64enc (P.gzip sj) with henc
  set chunks := chunkValue encoded with hchunks
  set keys := listWorkerChunkParameterKeys WORKER_CHUNK_COUNT with hkeys
  have hchne : chunks ≠ [] := chunkValue_ne_nil (hP.encoded_ne (manifestToJson m))
  have hlen1 : 1 ≤ chunks.length := by
    cases hc : chunks with
    | nil => exact absurd hc hchne
    | cons a t => simp
  have hlen12 : chunks.length ≤ 12 := hsize
  -- the parameter map encode produces
  have hkeysne : ∀ k ∈ keys, k ≠ [] := by rw [hkeys]; decide
  have hkeysnd : keys.Nodup := by rw [hkeys]; decide
  set pv4 := setParam (setParam (setParam (setParam
    (createDefaultWorkerParameterValues WORKER_CHUNK_COUNT)
    WORKERS_ENCODING_PARAM WORKERS_ENCODING)
    WORKERS_SCHEMA_VERSION_PARAM WORKER_SCHEMA_VERSION)
    WORKERS_SHA256_PARAM (P.sha256Hex sj))
    WORKERS_CHUNK_COUNT_PARAM (Nat.repr chunks.length).data with hpv4
  set pvF := writePairs pv4 (keys.zip chunks) with hpvF
  have hencEq : encodeWorkerManifest P m = .ok ⟨pvF, sj.length, m.workers.length⟩ := by
    cases hw : m.workers with
    | nil => exact absurd hw hne
    | cons w ws =>
      simp only [encodeWorkerManifest, hw]
      rw [← hw]
      rw [if_neg (show ¬ WORKER_CHUNK_COUNT < chunks.length by omega)]
      rw [writeChunks_eq keys hkeysne chunks 0 pv4 (by omega)]
      simp only [List.drop_zero, bind_ok]
  -- lookups in the final parameter map
  have hnotin : ∀ q : Str, q ∉ keys → ∀ e ∈ keys.zip chunks, e.1 ≠ q :=
    fun q hq e he h => hq (h ▸ (List.of_mem_zip he).1)
  have hk_count : pvF WORKERS_CHUNK_COUNT_PARAM =
      some (Nat.repr chunks.length).data := by
    rw [hpvF, writePairs_not_mem (hnotin _ (by rw [hkeys]; decide)), hpv4,
      setParam_same]
  have hk_sha : pvF WORKERS_SHA256_PARAM = some (P.sha256Hex sj) := by
    rw [hpvF, writePairs_not_mem (hnotin _ (by rw [hkeys]; decide)), hpv4,
      setParam_other _ _ _ _ (by decide), setParam_same]
  have hk_enc : pvF WORKERS_ENCODING_PARAM = some WORKERS_ENCODING := by
    rw [hpvF, writePairs_not_mem (hnotin _ (by rw [hkeys]; decide)), hpv4,
      setParam_other _ _ _ _ (by decide), setParam_other _ _ _ _ (by decide),
      setParam_other _ _ _ _ (by decide), setParam_same]
  have hk_schema : pvF WORKERS_SCHEMA_VERSION_PARAM =
      some WORKER_SCHEMA_VERSION := by
    rw [hpvF, writePairs_not_mem (hnotin _ (by rw [hkeys]; decide)), hpv4,
      setParam_other _ _ _ _ (by decide), setParam_other _ _ _ _ (by decide),
      setParam_same]
  have hznd : ((keys.zip chunks).map Prod.fst).Nodup := by
    rw [zip_map_fst_take]
    exact hkeysnd.sublist (List.take_sublist _ _)
  have hk_chunk : ∀ i (hik : i < keys.length) (hi : i < chunks.length),
      pvF (keys[i]) = some (chunks[i]) := by
    intro i hik hi
    have hzi : i < (keys.zip chunks).length := by
      rw [List.length_zip, lt_min_iff]
      exact ⟨hik, hi⟩
    have hmem : (keys[i], chunks[i]) ∈ keys.zip chunks := by
      have := List.getElem_mem hzi
      rwa [List.getElem_zip] at this
    exact writePairs_mem hznd hmem pv4
  -- reassembled chunk text
  have hsha_trim : jsTrim (P.sha256Hex sj) = P.sha256Hex sj :=
    jsTrim_of_no_ws (hP.sha_no_ws sj)
  have hsha_ne : P.sha256Hex sj ≠ [] := by
    intro hcontra
    have := hP.sha_len sj
    rw [hcontra] at this
    simp at this
  have hchunk_trim : ∀ c ∈ chunks, jsTrim c = c := by
    intro c hc
    exact jsTrim_of_no_ws (fun ch hch => hP.encoded_no_ws (manifestToJson m) ch
      (chunkValue_mem hc hch))
  have hmap : ((keys.take chunks.length).map
      (fun key => match pvF key with
        | some v => jsTrim v
        | none => [])) = chunks := by
    apply List.ext_getElem
    · rw [List.length_map, List.length_take]
      omega
    · intro i h1 h2
      rw [List.getElem_map, List.getElem_take]
      have hik : i < keys.length := by
        rw [List.length_map, List.length_take] at h1
        omega
      rw [hk_chunk i hik h2]
      exact hchunk_trim _ (List.getElem_mem h2)
  have hshaNotKey : WORKERS_SHA256_PARAM ∉ keys := by rw [hkeys]; decide
  -- the decoder on the produced map with an arbitrary replaced checksum
  have hgen : ∀ sha' : Str, jsTrim sha' ≠ [] →
      decodeWorkerManifest P (setParam pvF WORKERS_SHA256_PARAM sha') =
        if P.sha256Hex sj = jsTrim sha' then .ok (some m)
        else .error "worker manifest checksum mismatch".data := by
    intro sha' htr
    have hk_count' : setParam pvF WORKERS_SHA256_PARAM sha'
        WORKERS_CHUNK_COUNT_PARAM = some (Nat.repr chunks.length).data := by
      rw [setParam_other _ _ _ _ (by decide), hk_count]
    have hk_sha' : setParam pvF WORKERS_SHA256_PARAM sha'
        WORKERS_SHA256_PARAM = some sha' := setParam_same _ _ _
    have hk_enc' : setParam pvF WORKERS_SHA256_PARAM sha'
        WORKERS_ENCODING_PARAM = some WORKERS_ENCODING := by
      rw [setParam_other _ _ _ _ (by decide), hk_enc]
    have hk_schema' : setParam pvF WORKERS_SHA256_PARAM sha'
        WORKERS_SCHEMA_VERSION_PARAM = some WORKER_SCHEMA_VERSION := by
      rw [setParam_other _ _ _ _ (by decide), hk_schema]
    have hk_chunk' : ∀ i (hik : i < keys.length) (hi : i < chunks.length),
        setParam pvF WORKERS_SHA256_PARAM sha' (keys[i]) =
          some (chunks[i]) := by
      intro i hik hi
      have hne' : keys[i] ≠ WORKERS_SHA256_PARAM := by
        intro heq
        exact hshaNotKey (heq ▸ List.getElem_mem hik)
      rw [setParam_other _ _ _ _ hne', hk_chunk i hik hi]
    have hmap' : ((keys.take chunks.length).map
        (fun key => match setParam pvF WORKERS_SHA256_PARAM sha' key with
          | some v => jsTrim v
          | none => [])) = chunks := by
      apply List.ext_getElem
      · rw [List.length_map, List.length_take]
        omega
      · intro i h1 h2
        rw [List.getElem_map, List.getElem_take]
        have hik : i < keys.length := by
          rw [List.length_map, List.length_take] at h1
          omega
        rw [hk_chunk' i hik h2]
        exact hchunk_trim _ (List.getElem_mem h2)
    simp only [decodeWorkerManifest, hk_count', hk_sha', hk_enc', hk_schema',
      readChunkCount_repr chunks.length (by omega), bind_ok]
    rw [if_neg (by
      push_neg
      exact ⟨by omega, htr⟩)]
    rw [if_neg (by
      simp only [Option.map_some', ne_eq]
      rw [jsTrim_of_no_ws (by decide)]
      simp)]
    rw [if_neg (by
      simp only [Option.map_some', ne_eq]
      rw [jsTrim_of_no_ws (by decide)]
      simp)]
    rw [← hkeys, hmap', chunkValue_flatten]
    rw [if_neg (by simpa using hP.encoded_ne (manifestToJson m))]
    rw [henc, hsj, hP.pipeline_roundtrip (manifestToJson m)]
    simp only [bind_ok, parseWorkerManifestJson_stringify P hP hwf]
    by_cases heq : P.sha256Hex (P.stringify (manifestToJson m)) = jsTrim sha' <;>
      simp [heq]
  have hfix : setParam pvF WORKERS_SHA256_PARAM (P.sha256Hex sj) = pvF := by
    funext q
    by_cases hq : q = WORKERS_SHA256_PARAM
    · subst hq
      rw [setParam_same, hk_sha]
    · exact setParam_other _ _ _ _ hq
  refine ⟨⟨pvF, sj.length, m.workers.length⟩, hencEq, ?_, hgen⟩
  have hdec := hgen (P.sha256Hex sj) (by rw [hsha_trim]; exact hsha_ne)
  rw [hfix] at hdec
  rw [hdec, hsha_trim, if_pos rfl]

/-! ## A concrete lawful wire

`modelWire` instantiates the abstract platform primitives with a verified
executable codec: `encodeJ` is an injective whitespace-free rendering of
JSON values (unary numbers, count-prefixed strings), and the fuelled
`decodeJ` inverts it.  Compression and base64 become the identity — the
lawfulness contracts only concern losslessness and the output alphabet, so
this is the simplest wire satisfying them.  This shows the `LawfulWire`
assumptions are satisfiable and gives every theorem a concrete, computable
instance. -/

/-- Unary rendering of a natural number, `'1' * n` then `'0'`. -/
def encNat (n : Nat) : Str := List.replicate n '1' ++ ['0']

/-- Sign-prefixed unary rendering of an integer. -/
def encInt (i : Int) : Str :=
  if i < 0 then '-' :: encNat i.natAbs else '+' :: encNat i.natAbs

/-- Hexadecimal digit characters `0`-`9`, `a`-`f`. -/
def hexDigit (d : Nat) : Char :=
  if d < 10 then Char.ofNat (48 + d) else Char.ofNat (87 + d)

/-- Value of a hexadecimal digit character. -/
def hexVal (c : Char) : Option Nat :=
  if '0' ≤ c ∧ c ≤ '9' then some (c.toNat - 48)
  else if 'a' ≤ c ∧ c ≤ 'f' then some (c.toNat - 87)
  else none

/-- Fixed-width little-endian hexadecimal rendering of a natural
number. -/
def encBits : Nat → Nat → Str
  | 0, _ => []
  | w + 1, n => hexDigit (n % 16) :: encBits w (n / 16)

/-- Code points fit in six hexadecimal digits. -/
def CHAR_BITS : Nat := 6

/-- Count-prefixed rendering of a string, each character as its code
point in six hexadecimal digits. -/
def encStrBody (s : Str) : Str :=
  encNat s.length ++ (s.map (fun c => encBits CHAR_BITS c.toNat)).flatten

mutual

/-- Injective rendering of a JSON value over the whitespace-free alphabet
`nTFqsAOEk+-` with unary `01` counts and hex digit payloads. -/
def encodeJ : Json → Str
  | .null => ['n']
  | .jbool true => ['T']
  | .jbool false => ['F']
  | .jnum q => 'q' :: (encInt q.num ++ encNat q.den)
  | .jstr s => 's' :: encStrBody s
  | .jarr xs => 'A' :: (encodeArr xs ++ ['E'])
  | .jobj fs => 'O' :: (encodeObj fs ++ ['E'])

/-- Concatenated renderings of array elements. -/
def encodeArr : JsonArr → Str
  | .nil => []
  | .cons h t => encodeJ h ++ encodeArr t

/-- Concatenated key/value renderings of object fields. -/
def encodeObj : JsonObj → Str
  | .nil => []
  | .cons k v t => 'k' :: (encStrBody k ++ (encodeJ v ++ encodeObj t))

end

/-- Read one unary natural. -/
def readNat : Str → Option (Nat × Str)
  | '0' :: rest => some (0, rest)
  | '1' :: rest => (readNat rest).map (fun p => (p.1 + 1, p.2))
  | _ => none

/-- Read one signed unary integer. -/
def readInt : Str → Option (Int × Str)
  | '+' :: rest => (readNat rest).map (fun p => ((p.1 : Int), p.2))
  | '-' :: rest => (readNat rest).map (fun p => (-(p.1 : Int), p.2))
  | _ => none

/-- Read a fixed-width little-endian hexadecimal natural. -/
def readBits : Nat → Str → Option (Nat × Str)
  | 0, rest => some (0, rest)
  | w + 1, c :: rest =>
    match hexVal c with
    | some d => (readBits w rest).map (fun p => (16 * p.1 + d, p.2))
    | none => none
  | _ + 1, [] => none

/-- Read `n` hex-coded characters. -/
def readChars : Nat → Str → Option (Str × Str)
  | 0, rest => some ([], rest)
  | n + 1, rest => do
    let (c, r) ← readBits CHAR_BITS rest
    let (s, r') ← readChars n r
    some (Char.ofNat c :: s, r')

/-- Read a count-prefixed string. -/
def readStrBody (s : Str) : Option (Str × Str) := do
  let (n, r) ← readNat s
  readChars n r

/-- Rebuild a rational from its numerator and denominator. -/
def mkRatVal (num : Int) (den : Nat) : Rat := (num : Rat) / (den : Rat)

mutual

/-- Fuelled decoder for `encodeJ`. -/
def decodeJ : Nat → Str → Option (Json × Str)
  | 0, _ => none
  | _ + 1, 'n' :: rest => some (.null, rest)
  | _ + 1, 'T' :: rest => some (.jbool true, rest)
  | _ + 1, 'F' :: rest => some (.jbool false, rest)
  | _ + 1, 'q' :: rest => do
    let (num, r) ← readInt rest
    let (den, r') ← readNat r
    some (.jnum (mkRatVal num den), r')
  | _ + 1, 's' :: rest => do
    let (s, r) ← readStrBody rest
    some (.jstr s, r)
  | f + 1, 'A' :: rest => do
    let (xs, r) ← decodeArr f rest
    some (.jarr xs, r)
  | f + 1, 'O' :: rest => do
    let (fs, r) ← decodeObj f rest
    some (.jobj fs, r)
  | _ + 1, _ => none

/-- Fuelled decoder for array bodies: elements until the `E` terminator. -/
def decodeArr : Nat → Str → Option (JsonArr × Str)
  | 0, _ => none
  | f + 1, s =>
    match decodeJ f s with
    | some (j, r) =>
      (decodeArr f r).map (fun p => (.cons j p.1, p.2))
    | none =>
      match s with
      | 'E' :: rest => some (.nil, rest)
      | _ => none

/-- Fuelled decoder for object bodies: `k`-prefixed fields until `E`. -/
def decodeObj : Nat → Str → Option (JsonObj × Str)
  | 0, _ => none
  | _ + 1, 'E' :: rest => some (.nil, rest)
  | f + 1, 'k' :: rest => do
    let (k, r) ← readStrBody rest
    let (v, r') ← decodeJ f r
    let (t, r'') ← decodeObj f r'
    some (.cons k v t, r'')
  | _ + 1, _ => none

end

mutual

/-- Call-depth bound of the decoder on a rendered value. -/
def depthJ : Json → Nat
  | .jarr xs => 1 + depthArr xs
  | .jobj fs => 1 + depthObj fs
  | _ => 1

/-- Call-depth bound for array bodies. -/
def depthArr : JsonArr → Nat
  | .nil => 1
  | .cons h t => 1 + max (depthJ h) (depthArr t)

/-- Call-depth bound for object bodies. -/
def depthObj : JsonObj → Nat
  | .nil => 1
  | .cons _ v t => 1 + max (depthJ v) (depthObj t)

end

/-- Reduction of `Option` do-notation on a successful step. -/
theorem obind_some {α β : Type} (a : α) (f : α → Option β) :
    (Bind.bind (some a) f) = f a := rfl

theorem readNat_encNat (n : Nat) (rest : Str) :
    readNat (encNat n ++ rest) = some (n, rest) := by
  induction n with
  | zero => rfl
  | succ n ih =>
    show readNat ('1' :: (encNat n ++ rest)) = some (n + 1, rest)
    simp only [readNat, ih, Option.map_some']

theorem readInt_encInt (i : Int) (rest : Str) :
    readInt (encInt i ++ rest) = some (i, rest) := by
  by_cases h : i < 0
  · simp only [encInt, if_pos h, List.cons_append, readInt,
      readNat_encNat i.natAbs rest, Option.map_some']
    have : -(i.natAbs : Int) = i := by omega
    rw [this]
  · simp only [encInt, if_neg h, List.cons_append, readInt,
      readNat_encNat i.natAbs rest, Option.map_some']
    have : (i.natAbs : Int) = i := by omega
    rw [this]

theorem digit_mod_pow_succ (n w : Nat) :
    n % 16 ^ (w + 1) = 16 * (n / 16 % 16 ^ w) + n % 16 := by
  set q := n / 16 with hq
  set r := n % 16 with hr
  set M := 16 ^ w with hM
  have hMpos : 0 < M := Nat.pos_pow_of_pos w (by omega)
  have hqm := Nat.div_add_mod q M
  have hqmlt : q % M < M := Nat.mod_lt q hMpos
  have h1 : n = (16 * (q % M) + r) + 16 * M * (q / M) := by
    have h2 : 16 * M * (q / M) = 16 * (M * (q / M)) := by ring
    omega
  rw [pow_succ, mul_comm (16 ^ w) 16, ← hM, h1, Nat.add_mul_mod_self_left]
  exact Nat.mod_eq_of_lt (by omega)

theorem hexVal_hexDigit : ∀ d < 16, hexVal (hexDigit d) = some d := by decide

theorem readBits_encBits : ∀ (w n : Nat) (rest : Str),
    readBits w (encBits w n ++ rest) = some (n % 16 ^ w, rest) := by
  intro w
  induction w with
  | zero =>
    intro n rest
    simp [readBits, encBits, Nat.mod_one]
  | succ w ih =>
    intro n rest
    have h16 : n % 16 < 16 := Nat.mod_lt _ (by decide)
    simp only [encBits, List.cons_append, readBits, List.append_eq,
      hexVal_hexDigit (n % 16) h16, ih (n / 16) rest, Option.map_some']
    rw [digit_mod_pow_succ n w]

theorem char_toNat_lt (c : Char) : c.toNat < 16 ^ CHAR_BITS := by
  have := c.valid
  rcases this with h | ⟨h1, h2⟩ <;> simp [Char.toNat, CHAR_BITS] <;> omega

theorem readChars_enc (s : Str) (rest : Str) :
    readChars s.length
      ((s.map (fun c => encBits CHAR_BITS c.toNat)).flatten ++ rest) =
      some (s, rest) := by
  induction s with
  | nil => rfl
  | cons c t ih =>
    simp only [List.length_cons, List.map_cons, List.flatten_cons, readChars,
      List.append_assoc, readBits_encBits CHAR_BITS c.toNat]
    simp only [Nat.mod_eq_of_lt (char_toNat_lt c)]
    simp only [Option.bind_eq_bind, Option.some_bind, ih, Char.ofNat_toNat]

theorem readStrBody_enc (s : Str) (rest : Str) :
    readStrBody (encStrBody s ++ rest) = some (s, rest) := by
  simp only [readStrBody, encStrBody, List.append_assoc,
    readNat_encNat s.length]
  simp only [Option.bind_eq_bind, Option.some_bind, readChars_enc]

theorem decodeJ_E (f : Nat) (rest : Str) : decodeJ f ('E' :: rest) = none := by
  cases f <;> rfl

theorem depthJ_pos (j : Json) : 1 ≤ depthJ j := by
  cases j <;> simp [depthJ]

theorem dec_enc : ∀ f : Nat,
    (∀ (j : Json) (rest : Str), depthJ j ≤ f →
      decodeJ f (encodeJ j ++ rest) = some (j, rest)) ∧
    (∀ (xs : JsonArr) (rest : Str), depthArr xs ≤ f →
      decodeArr f (encodeArr xs ++ 'E' :: rest) = some (xs, rest)) ∧
    (∀ (fs : JsonObj) (rest : Str), depthObj fs ≤ f →
      decodeObj f (encodeObj fs ++ 'E' :: rest) = some (fs, rest)) := by
  intro f
  induction f with
  | zero =>
    refine ⟨fun j rest h => absurd h (by have := depthJ_pos j; omega), ?_, ?_⟩
    · intro xs rest h
      cases xs <;> simp [depthArr] at h
    · intro fs rest h
      cases fs <;> simp [depthObj] at h
  | succ f ih =>
    obtain ⟨ihJ, ihA, ihO⟩ := ih
    refine ⟨?_, ?_, ?_⟩
    · intro j rest h
      cases j with
      | null => rfl
      | jbool b => cases b <;> rfl
      | jnum q =>
        simp only [encodeJ, List.cons_append, List.append_assoc, decodeJ,
          readInt_encInt q.num, obind_some, readNat_encNat q.den]
        rw [show mkRatVal q.num q.den = q from by
          simp [mkRatVal, Rat.num_div_den]]
      | jstr s =>
        simp only [encodeJ, List.cons_append, decodeJ, readStrBody_enc,
          obind_some]
      | jarr xs =>
        have hxs : depthArr xs ≤ f := by
          simp only [depthJ] at h
          omega
        simp only [encodeJ, List.cons_append, List.append_assoc,
          List.singleton_append, List.nil_append, decodeJ, ihA xs rest hxs,
          obind_some]
      | jobj fs =>
        have hfs : depthObj fs ≤ f := by
          simp only [depthJ] at h
          omega
        simp only [encodeJ, List.cons_append, List.append_assoc,
          List.singleton_append, List.nil_append, decodeJ, ihO fs rest hfs,
          obind_some]
    · intro xs rest h
      cases xs with
      | nil =>
        simp only [encodeArr, List.nil_append, decodeArr, decodeJ_E]
      | cons j t =>
        simp only [depthArr] at h
        have hj : depthJ j ≤ f := by omega
        have ht : depthArr t ≤ f := by omega
        simp only [encodeArr, List.append_assoc, decodeArr,
          ihJ j (encodeArr t ++ 'E' :: rest) hj, ihA t rest ht,
          Option.map_some']
    · intro fs rest h
      cases fs with
      | nil => rfl
      | cons k v t =>
        simp only [depthObj] at h
        have hv : depthJ v ≤ f := by omega
        have ht : depthObj t ≤ f := by omega
        simp only [encodeObj, List.cons_append, List.append_eq,
          List.append_assoc, decodeObj, readStrBody_enc, obind_some,
          ihJ v (encodeObj t ++ 'E' :: rest) hv, ihO t rest ht]

theorem encodeJ_length_pos (j : Json) : 1 ≤ (encodeJ j).length := by
  cases j with
  | jbool b => cases b <;> simp [encodeJ]
  | _ => simp [encodeJ]

theorem encodeJ_ne (j : Json) : encodeJ j ≠ [] := by
  intro hcontra
  have := encodeJ_length_pos j
  rw [hcontra] at this
  simp at this

mutual

theorem depthJ_le (j : Json) : depthJ j ≤ (encodeJ j).length + 1 := by
  cases j with
  | null => simp [depthJ, encodeJ]
  | jbool b => cases b <;> simp [depthJ, encodeJ]
  | jnum q => simp [depthJ, encodeJ]
  | jstr s => simp [depthJ, encodeJ]
  | jarr xs =>
    have h1 := depthArr_le xs
    simp only [depthJ, encodeJ, List.length_cons, List.length_append]
    omega
  | jobj fs =>
    have h1 := depthObj_le fs
    simp only [depthJ, encodeJ, List.length_cons, List.length_append]
    omega

theorem depthArr_le (xs : JsonArr) : depthArr xs ≤ (encodeArr xs).length + 2 := by
  cases xs with
  | nil => simp [depthArr, encodeArr]
  | cons h t =>
    have h1 := depthJ_le h
    have h2 := depthArr_le t
    have h3 := encodeJ_length_pos h
    simp only [depthArr, encodeArr, List.length_append]
    have hmax : max (depthJ h) (depthArr t) ≤
        (encodeJ h).length + (encodeArr t).length + 1 :=
      max_le (by omega) (by omega)
    omega

theorem depthObj_le (fs : JsonObj) : depthObj fs ≤ (encodeObj fs).length + 2 := by
  cases fs with
  | nil => simp [depthObj, encodeObj]
  | cons k v t =>
    have h1 := depthJ_le v
    have h2 := depthObj_le t
    have h3 := encodeJ_length_pos v
    simp only [depthObj, encodeObj, List.length_cons, List.length_append]
    have hmax : max (depthJ v) (depthObj t) ≤
        (encStrBody k).length + ((encodeJ v).length + (encodeObj t).length) + 1 :=
      max_le (by omega) (by omega)
    omega

end

theorem encNat_no_ws (n : Nat) : ∀ c ∈ encNat n, isJsWs c = false := by
  intro c hc
  simp only [encNat, List.mem_append, List.mem_replicate,
    List.mem_singleton] at hc
  rcases hc with ⟨-, rfl⟩ | rfl <;> decide

theorem encInt_no_ws (i : Int) : ∀ c ∈ encInt i, isJsWs c = false := by
  intro c hc
  unfold encInt at hc
  by_cases h : i < 0 <;> simp only [h, if_true, if_false, List.mem_cons] at hc
  · rcases hc with rfl | hc
    · decide
    · exact encNat_no_ws _ c hc
  · rcases hc with rfl | hc
    · decide
    · exact encNat_no_ws _ c hc

theorem hexDigit_no_ws : ∀ d < 16, isJsWs (hexDigit d) = false := by decide

theorem encBits_no_ws (w n : Nat) : ∀ c ∈ encBits w n, isJsWs c = false := by
  induction w generalizing n with
  | zero => intro c hc; simp [encBits] at hc
  | succ w ih =>
    intro c hc
    simp only [encBits, List.mem_cons] at hc
    rcases hc with rfl | hc
    · exact hexDigit_no_ws _ (Nat.mod_lt _ (by decide))
    · exact ih (n / 16) c hc

theorem encStrBody_no_ws (s : Str) : ∀ c ∈ encStrBody s, isJsWs c = false := by
  intro c hc
  simp only [encStrBody, List.mem_append, List.mem_flatten, List.mem_map] at hc
  rcases hc with hc | ⟨l, ⟨d, -, rfl⟩, hc⟩
  · exact encNat_no_ws _ c hc
  · exact encBits_no_ws _ _ c hc

mutual

theorem encodeJ_no_ws (j : Json) : ∀ c ∈ encodeJ j, isJsWs c = false := by
  cases j with
  | null => intro c hc; simp only [encodeJ, List.mem_singleton] at hc; subst hc; decide
  | jbool b =>
    intro c hc
    cases b <;> simp only [encodeJ, List.mem_singleton] at hc <;>
      subst hc <;> decide
  | jnum q =>
    intro c hc
    simp only [encodeJ, List.mem_cons, List.mem_append] at hc
    rcases hc with rfl | hc | hc
    · decide
    · exact encInt_no_ws _ c hc
    · exact encNat_no_ws _ c hc
  | jstr s =>
    intro c hc
    simp only [encodeJ, List.mem_cons] at hc
    rcases hc with rfl | hc
    · decide
    · exact encStrBody_no_ws _ c hc
  | jarr xs =>
    intro c hc
    simp only [encodeJ, List.mem_cons, List.mem_append, List.mem_singleton,
      List.not_mem_nil, or_false] at hc
    rcases hc with rfl | hc | rfl
    · decide
    · exact encodeArr_no_ws xs c hc
    · decide
  | jobj fs =>
    intro c hc
    simp only [encodeJ, List.mem_cons, List.mem_append, List.mem_singleton,
      List.not_mem_nil, or_false] at hc
    rcases hc with rfl | hc | rfl
    · decide
    · exact encodeObj_no_ws fs c hc
    · decide

theorem encodeArr_no_ws (xs : JsonArr) :
    ∀ c ∈ encodeArr xs, isJsWs c = false := by
  cases xs with
  | nil => intro c hc; simp [encodeArr] at hc
  | cons h t =>
    intro c hc
    simp only [encodeArr, List.mem_append] at hc
    rcases hc with hc | hc
    · exact encodeJ_no_ws h c hc
    · exact encodeArr_no_ws t c hc

theorem encodeObj_no_ws (fs : JsonObj) :
    ∀ c ∈ encodeObj fs, isJsWs c = false := by
  cases fs with
  | nil => intro c hc; simp [encodeObj] at hc
  | cons k v t =>
    intro c hc
    simp only [encodeObj, List.mem_cons, List.mem_append] at hc
    rcases hc with rfl | hc | hc | hc
    · decide
    · exact encStrBody_no_ws _ c hc
    · exact encodeJ_no_ws v c hc
    · exact encodeObj_no_ws t c hc

end

/-- Full-input JSON parse for the model wire. -/
def modelParse (s : Str) : Option Json :=
  match decodeJ (s.length + 1) s with
  | some (j, []) => some j
  | _ => none

theorem modelParse_encodeJ (j : Json) : modelParse (encodeJ j) = some j := by
  have h := (dec_enc ((encodeJ j).length + 1)).1 j []
    (by have := depthJ_le j; omega)
  rw [List.append_nil] at h
  simp [modelParse, h]

/-- The concrete lawful wire: verified JSON codec, identity compression and
base64, constant digest. -/
def modelWire : Wire where
  stringify := encodeJ
  parseJsonStr := modelParse
  gzip := fun s => s
  gunzip := fun s => .ok s
  b64enc := fun s => s
  b64dec := fun s => s
  sha256Hex := fun _ => "hh".data

theorem lawful_modelWire : LawfulWire modelWire := by
  refine ⟨?_, ?_, ?_, ?_, ?_, ?_⟩
  · intro j
    exact modelParse_encodeJ j
  · intro j
    rfl
  · intro j c hc
    exact encodeJ_no_ws j c hc
  · intro j
    exact encodeJ_ne j
  · intro s c hc
    have hcc : c = 'h' := by
      simp only [modelWire] at hc
      simpa using hc
    subst hcc
    decide
  · intro s
    show 2 ≤ ("hh".data).length
    decide

/-! ## Event router (`route.ts`) -/

/-- `WorkerRouteContext` from `route.ts`.  `provider` is fixed to
`"github"` by its type; it is kept as a string field. -/
structure WorkerRouteContext where
  provider : Str
  event : Str
  action : Option Str
  repository : Option Str
  baseBranch : Option Str
  headBranch : Option Str
  draft : Option Bool
  deriving DecidableEq, Repr

/-- `matchesAction` from `route.ts` (`!action` is falsy: absent or
empty). -/
def matchesAction (actions : List Str) (action : Option Str) : Bool :=
  match action with
  | none => false
  | some a => if a = [] then false else actions.any (fun candidate => candidate = a)

/-- `matchesOptionalFilter` from `route.ts`. -/
def matchesOptionalFilter (filters : Option (List Str)) (value : Option Str) :
    Bool :=
  match filters with
  | none => true
  | some fs =>
    if fs = [] then true
    else
      match value with
      | none => false
      | some v => if v = [] then false else fs.any (fun candidate => candidate = v)

/-- `matchesTrigger` from `route.ts`. -/
def matchesTrigger (trigger : WorkerTrigger) (context : WorkerRouteContext) :
    Bool :=
  if trigger.provider ≠ context.provider then false
  else if trigger.event ≠ context.event then false
  else if (match trigger.actions with
    | some actions => !matchesAction actions context.action
    | none => false) then false
  else
    match trigger.filter with
    | none => true
    | some filter =>
      if !matchesOptionalFilter filter.repository context.repository then false
      else if !matchesOptionalFilter filter.baseBranches context.baseBranch then
        false
      else if !matchesOptionalFilter filter.headBranches context.headBranch then
        false
      else if (match filter.draft, context.draft with
        | some fd, some cd => fd != cd
        | _, _ => false) then false
      else true

/-- `matchesWorker` from `route.ts`: any trigger matches. -/
def matchesWorker (worker : WorkerDefinition)
    (context : WorkerRouteContext) : Bool :=
  worker.triggers.any (fun trigger => matchesTrigger trigger context)

/-- `routeWorkers` from `route.ts`: skip workers with
`enabled === false`, keep the ones with a matching trigger, in manifest
order. -/
def routeWorkers (manifest : WorkerManifest) (context : WorkerRouteContext) :
    List WorkerDefinition :=
  manifest.workers.foldr
    (fun worker matched =>
      if worker.metadata.enabled = some false then matched
      else if matchesWorker worker context then worker :: matched
      else matched) []

/-- The router is the filter of enabled, matching workers, in manifest
order. -/
theorem routeWorkers_eq_filter (manifest : WorkerManifest)
    (context : WorkerRouteContext) :
    routeWorkers manifest context =
      manifest.workers.filter
        (fun worker => worker.metadata.enabled ≠ some false &&
          matchesWorker worker context) := by
  unfold routeWorkers
  induction manifest.workers with
  | nil => rfl
  | cons w rest ih =>
    rw [List.foldr_cons, List.filter_cons, ih]
    by_cases he : w.metadata.enabled = some false
    · simp [he]
    · by_cases hm : matchesWorker w context <;> simp [he, hm]


/-! ## Concrete witness data -/

/-- A parse-normal-form worker (id `a`, one `github`/`c` trigger, prompt
`d`), concrete input for the codec theorems. -/
def w0 : WorkerDefinition :=
  ⟨⟨"a".data, "b".data, none, some true, none⟩,
   [⟨"github".data, "c".data, none, none⟩],
   ⟨none, none, "d".data, none, none, none⟩⟩

/-- A one-worker manifest. -/
def m0 : WorkerManifest := ⟨[w0]⟩

/-! ## Checksum flips -/

/-- Replacing one character of a whitespace-free string of length at least
two by a different character yields a string whose trim is neither the
original string nor empty. -/
theorem jsTrim_set_ne {s : Str} {i : Nat} {c : Char}
    (hws : ∀ ch ∈ s, isJsWs ch = false) (hlen : 2 ≤ s.length)
    (hi : i < s.length) (hc : c ≠ s[i]) :
    jsTrim (s.set i c) ≠ s ∧ jsTrim (s.set i c) ≠ [] := by
  have hinf : jsTrim (s.set i c) <:+: s.set i c := by
    unfold jsTrim
    exact (List.rdropWhile_prefix _ _).isInfix.trans
      (List.dropWhile_suffix _).isInfix
  constructor
  · intro heq
    have hlen_eq : (jsTrim (s.set i c)).length = (s.set i c).length := by
      rw [heq, List.length_set]
    have hset : jsTrim (s.set i c) = s.set i c := hinf.eq_of_length hlen_eq
    have hss : s = s.set i c := heq.symm.trans hset
    have h2 : s[i]? = (s.set i c)[i]? := by rw [← hss]
    rw [List.getElem?_set_self hi, List.getElem?_eq_getElem hi] at h2
    exact hc (Option.some_injective _ h2).symm
  · intro heq
    have hdw : List.dropWhile isJsWs (s.set i c) = [] := by
      cases hd : List.dropWhile isJsWs (s.set i c) with
      | nil => rfl
      | cons a t =>
        have hallws : ∀ x ∈ List.dropWhile isJsWs (s.set i c), isJsWs x := by
          rw [← List.rdropWhile_eq_nil_iff]
          exact heq
        have h0 : 0 < (List.dropWhile isJsWs (s.set i c)).length := by
          rw [hd]; simp
        have hhead := List.dropWhile_get_zero_not isJsWs (s.set i c) h0
        exact absurd (hallws _ (List.get_mem _ _ h0)) hhead
    have hall : ∀ ch ∈ s.set i c, isJsWs ch := List.dropWhile_eq_nil_iff.mp hdw
    obtain ⟨j, hjlt, hjne⟩ : ∃ j, j < s.length ∧ j ≠ i := by
      by_cases hi0 : i = 0
      · exact ⟨1, by omega, by omega⟩
      · exact ⟨0, by omega, by omega⟩
    have hj1 : (s.set i c)[j]? = s[j]? := List.getElem?_set_ne (Ne.symm hjne)
    have hmem : s[j] ∈ s.set i c := by
      apply List.getElem?_mem
      rw [hj1]
      exact List.getElem?_eq_getElem hjlt
    have hwsj := hall _ hmem
    rw [hws _ (List.getElem_mem hjlt)] at hwsj
    exact Bool.false_ne_true hwsj

/-- C4: for every lawful wire, every non-empty well-formed manifest
within the chunk budget, and every single-character change of the stored
sha256 checksum value — chunk values untouched — decode fails with the
checksum-mismatch error instead of returning a manifest. -/
theorem c4_checksum_flip_fails (P : Wire) (hP : LawfulWire P)
    (m : WorkerManifest) (hwf : wfManifest m = true) (hne : m.workers ≠ [])
    (hsize : (chunkValue (P.b64enc (P.gzip
      (P.stringify (manifestToJson m))))).length ≤ WORKER_CHUNK_COUNT)
    (sw : SerializedWorkers) (henc : encodeWorkerManifest P m = .ok sw)
    (i : Nat) (c : Char)
    (hi : i < (P.sha256Hex (P.stringify (manifestToJson m))).length)
    (hc : c ≠ (P.sha256Hex (P.stringify (manifestToJson m)))[i]) :
    decodeWorkerManifest P
        (setParam sw.parameterValues WORKERS_SHA256_PARAM
          ((P.sha256Hex (P.stringify (manifestToJson m))).set i c)) =
      .error "worker manifest checksum mismatch".data := by
  obtain ⟨sw2, hsw2, hdec, hsha⟩ :=
    decodeWorkerManifest_encodeWorkerManifest P hP m hwf hne hsize
  rw [henc] at hsw2
  injection hsw2 with hsw2
  subst hsw2
  have hnws : ∀ ch ∈ P.sha256Hex (P.stringify (manifestToJson m)),
      isJsWs ch = false := fun ch hch => hP.sha_no_ws _ ch hch
  have h2 := hP.sha_len (P.stringify (manifestToJson m))
  obtain ⟨hne1, hne2⟩ := jsTrim_set_ne hnws h2 hi hc
  rw [hsha _ hne2, if_neg (fun h => hne1 h.symm)]

/-- The encoding of `m0` through the model wire. -/
def sw0 : SerializedWorkers :=
  match encodeWorkerManifest modelWire m0 with
  | .ok sw => sw
  | .error _ => ⟨fun _ => none, 0, 0⟩

set_option maxRecDepth 40000

/-- Witness for C4: the model wire, the one-worker manifest `m0`, and a
flip of the checksum's first character. -/
theorem c4_checksum_flip_fails_witness :
    decodeWorkerManifest modelWire
        (setParam sw0.parameterValues WORKERS_SHA256_PARAM
          ((modelWire.sha256Hex
            (modelWire.stringify (manifestToJson m0))).set 0 'x')) =
      .error "worker manifest checksum mismatch".data :=
  c4_checksum_flip_fails modelWire lawful_modelWire m0 (by decide) (by decide)
    (by decide) sw0 rfl 0 'x' (by decide) (by decide)


/-! ## Round trip and empty-manifest sentinel (claims C1, C7) -/

/-- C1 (amended to non-empty manifests): for every lawful wire and every
well-formed, non-empty manifest within the size bound, encoding succeeds
and decoding the produced parameter values yields the manifest again. -/
theorem c1_roundtrip_nonempty (P : Wire) (hP : LawfulWire P)
    (m : WorkerManifest) (hwf : wfManifest m = true) (hne : m.workers ≠ [])
    (hsize : (chunkValue (P.b64enc (P.gzip
      (P.stringify (manifestToJson m))))).length ≤ WORKER_CHUNK_COUNT) :
    ∃ sw, encodeWorkerManifest P m = .ok sw ∧
      decodeWorkerManifest P sw.parameterValues = .ok (some m) := by
  obtain ⟨sw, h1, h2, _⟩ :=
    decodeWorkerManifest_encodeWorkerManifest P hP m hwf hne hsize
  exact ⟨sw, h1, h2⟩

/-- Witness for C1: the model wire and the one-worker manifest `m0`. -/
theorem c1_roundtrip_nonempty_witness :
    ∃ sw, encodeWorkerManifest modelWire m0 = .ok sw ∧
      decodeWorkerManifest modelWire sw.parameterValues = .ok (some m0) :=
  c1_roundtrip_nonempty modelWire lawful_modelWire m0 (by decide) (by decide)
    (by decide)

/-- C1 as stated fails at the empty manifest, which is well formed and
within the size bound: encoding succeeds, but decoding the produced
parameter values yields `none` — no manifest — not the empty manifest. -/
theorem c1_empty_manifest_counterexample :
    wfManifest ⟨[]⟩ = true ∧
    (encodeWorkerManifest modelWire ⟨[]⟩).map
        (fun sw => decodeWorkerManifest modelWire sw.parameterValues) =
      .ok (.ok none) ∧
    (Except.ok (Except.ok (some (⟨[]⟩ : WorkerManifest))) :
        Except Str (Except Str (Option WorkerManifest))) ≠ .ok (.ok none) :=
  ⟨rfl, rfl, by simp⟩

/-- C7: for every wire, encoding the empty manifest produces the
degenerate all-empty, chunk-count-0 parameter values, and decoding those
values returns `none` — distinguishable from every decoded manifest,
including a present-but-empty one. -/
theorem c7_empty_sentinel (P : Wire) :
    encodeWorkerManifest P ⟨[]⟩ =
      .ok ⟨createDefaultWorkerParameterValues WORKER_CHUNK_COUNT, 0, 0⟩ ∧
    decodeWorkerManifest P
        (createDefaultWorkerParameterValues WORKER_CHUNK_COUNT) = .ok none ∧
    ∀ m : WorkerManifest,
      (Except.ok (some m) : Except Str (Option WorkerManifest)) ≠ .ok none :=
  ⟨rfl, rfl, fun m h => by simp at h⟩

/-! ## Worker loading and id uniqueness (claim C8) -/

/-- The body of `loadWorkers` from `load.ts`: workers are accumulated in
file order over a `seenIds` set, and a worker whose id was already seen
throws `duplicate worker id`.  File discovery and per-file loading are
I/O; the already-loaded definitions are the input list, and the JS `Set`
is the list of ids seen so far. -/
def loadWorkersLoop (seenIds : List Str) (acc : List WorkerDefinition) :
    List WorkerDefinition → Except Str (List WorkerDefinition)
  | [] => .ok acc.reverse
  | worker :: rest =>
    if worker.metadata.id ∈ seenIds then
      .error ("duplicate worker id: ".data ++ worker.metadata.id)
    else
      loadWorkersLoop (worker.metadata.id :: seenIds) (worker :: acc) rest

/-- `loadWorkers` from `load.ts`, over the loaded worker definitions. -/
def loadWorkers (workers : List WorkerDefinition) :
    Except Str (List WorkerDefinition) :=
  loadWorkersLoop [] [] workers

/-- Invariant of the `loadWorkers` loop: a successful run returns the
accumulator followed by the input, the input ids are mutually distinct,
and none of them was seen before. -/
theorem loadWorkersLoop_ok :
    ∀ {workers : List WorkerDefinition} {seenIds : List Str}
      {acc result : List WorkerDefinition},
      loadWorkersLoop seenIds acc workers = .ok result →
      result = acc.reverse ++ workers ∧
      (workers.map (fun w => w.metadata.id)).Nodup ∧
      ∀ w ∈ workers, w.metadata.id ∉ seenIds := by
  intro workers
  induction workers with
  | nil =>
    intro seenIds acc result h
    injection h with h
    simp [← h]
  | cons worker rest ih =>
    intro seenIds acc result h
    unfold loadWorkersLoop at h
    by_cases hseen : worker.metadata.id ∈ seenIds
    · simp [hseen] at h
    · rw [if_neg hseen] at h
      obtain ⟨h1, h2, h3⟩ := ih h
      refine ⟨by simpa using h1, ?_, ?_⟩
      · refine List.nodup_cons.mpr ⟨?_, h2⟩
        intro hmem
        simp only [List.mem_map] at hmem
        obtain ⟨w, hw, hid⟩ := hmem
        exact h3 w hw (by rw [hid]; exact List.mem_cons_self _ _)
      · intro w hw
        rcases List.mem_cons.mp hw with rfl | hw2
        · exact hseen
        · intro hmem
          exact h3 w hw2 (List.mem_cons_of_mem _ hmem)

/-- C8 (amended): `decode` itself does not enforce id uniqueness — the
system's enforcement point is `loadWorkers`, whose duplicate-id check
guarantees that any worker list it returns carries pairwise-distinct ids
and is the input list unchanged. -/
theorem c8_loadWorkers_unique_ids (workers result : List WorkerDefinition)
    (h : loadWorkers workers = .ok result) :
    result = workers ∧ (result.map (fun w => w.metadata.id)).Nodup := by
  obtain ⟨h1, h2, _⟩ := loadWorkersLoop_ok h
  simp only [List.reverse_nil, List.nil_append] at h1
  exact ⟨h1, h1 ▸ h2⟩

/-- Witness for C8: loading a single worker succeeds and its id list has
no duplicates. -/
theorem c8_loadWorkers_unique_ids_witness :
    [w0] = [w0] ∧ ([w0].map (fun w => w.metadata.id)).Nodup :=
  c8_loadWorkers_unique_ids [w0] [w0] rfl

/-- A manifest holding the same worker twice. -/
def dupManifest : WorkerManifest := ⟨[w0, w0]⟩

/-- C8 as stated fails for `decode` alone: decoding the encoding of a
manifest that holds the same worker twice returns that manifest, whose id
list has a duplicate. -/
theorem c8_decode_duplicate_ids_counterexample :
    (encodeWorkerManifest modelWire dupManifest).map
        (fun sw => decodeWorkerManifest modelWire sw.parameterValues) =
      .ok (.ok (some dupManifest)) ∧
    ¬ (dupManifest.workers.map (fun w => w.metadata.id)).Nodup := by
  constructor
  · obtain ⟨sw, h1, h2, _⟩ := decodeWorkerManifest_encodeWorkerManifest
      modelWire lawful_modelWire dupManifest (by decide) (by decide) (by decide)
    rw [h1, Except.map, h2]
  · decide


/-! ## Router order (claim C2) -/

/-- A second worker, identical to `w0` except for id `b`. -/
def w1 : WorkerDefinition :=
  ⟨⟨"b".data, "b".data, none, some true, none⟩,
   [⟨"github".data, "c".data, none, none⟩],
   ⟨none, none, "d".data, none, none, none⟩⟩

/-- A route context matching the trigger of `w0` and `w1`. -/
def ctx0 : WorkerRouteContext :=
  ⟨"github".data, "c".data, none, none, none, none, none⟩

/-- C2 (amended): `routeWorkers` returns exactly the non-disabled workers
with a matching trigger, in manifest order — not sorted by id — and in
particular never returns a worker whose metadata has `enabled: false`. -/
theorem c2_route_filter (manifest : WorkerManifest)
    (context : WorkerRouteContext) :
    routeWorkers manifest context =
      manifest.workers.filter
        (fun worker => worker.metadata.enabled ≠ some false &&
          matchesWorker worker context) ∧
    ∀ worker ∈ routeWorkers manifest context,
      worker.metadata.enabled ≠ some false := by
  refine ⟨routeWorkers_eq_filter manifest context, fun worker hw => ?_⟩
  rw [routeWorkers_eq_filter] at hw
  have := List.of_mem_filter hw
  simp only [Bool.and_eq_true, decide_eq_true_eq] at this
  exact this.1

/-- C2 as stated fails: with both orders of the same two matching enabled
workers (ids `b` and `a`), the router returns manifest order, so the
output is order-dependent and not id-sorted. -/
theorem c2_route_order_counterexample :
    routeWorkers ⟨[w1, w0]⟩ ctx0 = [w1, w0] ∧
    routeWorkers ⟨[w0, w1]⟩ ctx0 = [w0, w1] ∧
    ([w1, w0] : List WorkerDefinition) ≠ [w0, w1] ∧
    w1.metadata.id = "b".data ∧ w0.metadata.id = "a".data := by
  refine ⟨by decide, by decide, by decide, rfl, rfl⟩

/-! ## ECS dispatch loop (claim C3) -/

/-- An ECS container environment: `{name, value}` pairs. -/
abbrev TaskEnv := List (Str × Str)

/-- One entry of an ECS `runTask` failure list. -/
structure RunTaskFailure where
  reason : Option Str
  detail : Option Str
  deriving DecidableEq, Repr

/-- The fields of the ECS `runTask` response the lambda reads:
`response.failures` and `response.tasks?.length ?? 0`. -/
structure RunTaskResponse where
  failures : Option (List RunTaskFailure)
  taskCount : Nat
  deriving DecidableEq, Repr

/-- `assertRunTaskSuccess` from the webhook lambda. -/
def assertRunTaskSuccess (failures : Option (List RunTaskFailure))
    (taskCount : Nat) : Except Str Unit :=
  if 0 < (failures.getD []).length then
    .error ("ecs runTask failed ".data ++
      (List.intercalate ", ".data
        ((failures.getD []).map (fun failure =>
          failure.reason.getD "unknown".data ++ ":".data ++
            failure.detail.getD []))))
  else if taskCount = 0 then .error "ecs runTask created no tasks".data
  else .ok ()

/-- `runTask` from the webhook lambda: issue the ECS command — the
response supplied by the `send` oracle — and assert success. -/
def runTask (send : TaskEnv → RunTaskResponse) (environment : TaskEnv) :
    Except Str Unit :=
  assertRunTaskSuccess (send environment).failures (send environment).taskCount

/-- The dispatch loop of `handleRecord`: `for (const environment of
environments) await runTask(environment)`.  There is no catch around the
body, so a thrown error aborts the loop.  The first component records the
environments on which `runTask` was invoked. -/
def dispatchEnvironments (send : TaskEnv → RunTaskResponse) :
    List TaskEnv → List TaskEnv × Except Str Unit
  | [] => ([], .ok ())
  | environment :: rest =>
    match runTask send environment with
    | .ok _ =>
      (environment :: (dispatchEnvironments send rest).1,
        (dispatchEnvironments send rest).2)
    | .error e => ([environment], .error e)

/-- C3 (amended): the dispatch loop is fail-fast, not per-worker — when
the launch for the worker at position `i` fails after every earlier
launch succeeded, the loop stops there: exactly the first `i + 1`
environments are attempted and the error propagates, leaving every later
sibling undispatched. -/
theorem c3_dispatch_fail_fast (send : TaskEnv → RunTaskResponse)
    (environments : List TaskEnv) (i : Nat) (hi : i < environments.length)
    (e : Str) (herr : runTask send (environments.get ⟨i, hi⟩) = .error e)
    (hok : ∀ j (hj : j < environments.length), j < i →
      runTask send (environments.get ⟨j, hj⟩) = .ok ()) :
    dispatchEnvironments send environments =
      (environments.take (i + 1), .error e) := by
  induction environments generalizing i with
  | nil => exact absurd hi (by simp)
  | cons a rest ih =>
    cases i with
    | zero =>
      simp only [List.get] at herr
      unfold dispatchEnvironments
      rw [herr]
      rfl
    | succ n =>
      have h0 : runTask send a = .ok () := hok 0 (by simp) (by omega)
      have hn : n < rest.length := by simpa using hi
      have herr2 : runTask send (rest.get ⟨n, hn⟩) = .error e := by
        simpa [List.get] using herr
      have hok2 : ∀ j (hj : j < rest.length), j < n →
          runTask send (rest.get ⟨j, hj⟩) = .ok () := by
        intro j hj hlt
        have := hok (j + 1) (by simpa using hj) (by omega)
        simpa [List.get] using this
      unfold dispatchEnvironments
      rw [h0, ih n hn herr2 hok2]
      rfl

/-- Concrete task environments for the dispatch counterexample. -/
def e1 : TaskEnv := [("SKIPPER_WORKER_ID".data, "a".data)]

/-- A second concrete task environment. -/
def e2 : TaskEnv := [("SKIPPER_WORKER_ID".data, "b".data)]

/-- Witness for C3: a response with zero tasks for every environment
fails the first launch, and only the first environment is attempted. -/
theorem c3_dispatch_fail_fast_witness :
    dispatchEnvironments (fun _ => ⟨none, 0⟩) [e1, e2] =
      ([e1, e2].take 1, .error "ecs runTask created no tasks".data) :=
  c3_dispatch_fail_fast (fun _ => ⟨none, 0⟩) [e1, e2] 0 (by decide) _ rfl
    (fun j hj hlt => absurd hlt (by omega))

/-- C3 as stated fails: with two matched environments and a launch
failure on the first, the second — still pending — is never dispatched,
so the failure is not confined to its own worker. -/
theorem c3_dispatch_counterexample :
    dispatchEnvironments (fun _ => ⟨none, 0⟩) [e1, e2] =
      ([e1], .error "ecs runTask created no tasks".data) ∧
    e2 ∉ ([e1] : List TaskEnv) := by
  exact ⟨rfl, by decide⟩


/-! ## GitHub App token runtime (claim C5)

`createGitHubAppRuntime` from `handler.ts`, as a state machine: the
closure state (installation token cache, cached private key) together
with the call counters of the two awaited external services.  The oracles
are indexed by call count: `readPrivateKeyPemAt i` is what the `i`-th SSM
read returns, `createInstallationAccessTokenAt i` what the `i`-th token
exchange returns; `deps.nowMs()` is passed per call as `nowMs`. -/

/-- `TOKEN_REFRESH_BUFFER_MS` from `handler.ts`. -/
def TOKEN_REFRESH_BUFFER_MS : Int := 60000

/-- `PRIVATE_KEY_CACHE_TTL_MS` from `handler.ts`. -/
def PRIVATE_KEY_CACHE_TTL_MS : Int := 24 * 60 * 60 * 1000

/-- The fields of `InstallationAccessToken` the runtime reads: the token
string and `expiresAt.getTime()`. -/
structure InstallationAccessToken where
  token : Str
  expiresAtMs : Int
  deriving DecidableEq, Repr

/-- `GitHubAppRuntimeConfig` from `handler.ts`. -/
structure GitHubAppRuntimeConfig where
  appId : Str
  privateKeySsmParameterName : Str
  tokenRefreshBufferMs : Option Int
  privateKeyCacheTtlMs : Option Int

/-- `GitHubAppRuntimeDeps`, with the awaited services indexed by call
count and `buildAppJwt` a pure function of app id and key. -/
structure GitHubAppRuntimeDeps where
  readPrivateKeyPemAt : Nat → Str
  buildAppJwt : Str → Str → Str
  createInstallationAccessTokenAt : Nat → Rat → Str → InstallationAccessToken

/-- The closure state of `createGitHubAppRuntime`, plus the call counts
of the two awaited services. -/
structure GitHubAppRuntimeState where
  installationTokenCache : List (Rat × InstallationAccessToken)
  cachedPrivateKey : Option (Str × Int)
  keyReads : Nat
  exchanges : Nat
  deriving DecidableEq, Repr

/-- JS `Map.get`. -/
def mapGet (m : List (Rat × InstallationAccessToken)) (k : Rat) :
    Option InstallationAccessToken :=
  match m.find? (fun kv => kv.1 == k) with
  | some kv => some kv.2
  | none => none

/-- JS `Map.set`: replace the value under an existing key, else append. -/
def mapSet : List (Rat × InstallationAccessToken) → Rat →
    InstallationAccessToken → List (Rat × InstallationAccessToken)
  | [], k, v => [(k, v)]
  | kv :: rest, k, v =>
    if kv.1 == k then (k, v) :: rest else kv :: mapSet rest k v

theorem mapGet_cons_self (k : Rat) (v : InstallationAccessToken)
    (rest : List (Rat × InstallationAccessToken)) :
    mapGet ((k, v) :: rest) k = some v := by
  simp [mapGet, List.find?]

theorem mapSet_cons_self (k : Rat) (v v2 : InstallationAccessToken)
    (rest : List (Rat × InstallationAccessToken)) :
    mapSet ((k, v) :: rest) k v2 = (k, v2) :: rest := by
  simp [mapSet]

/-- The cache-miss path of `readPrivateKeyPemCached`: read from SSM, trim,
reject an empty value, and fill the key cache. -/
def readPrivateKeyFresh (config : GitHubAppRuntimeConfig)
    (deps : GitHubAppRuntimeDeps) (st : GitHubAppRuntimeState)
    (nowMs : Int) : Except Str (Str × GitHubAppRuntimeState) :=
  let value := jsTrim (deps.readPrivateKeyPemAt st.keyReads)
  if value = [] then
    .error ("ssm parameter empty: ".data ++ config.privateKeySsmParameterName)
  else
    .ok (value,
      { st with
          keyReads := st.keyReads + 1
          cachedPrivateKey := some (value, nowMs) })

/-- `readPrivateKeyPemCached` from `handler.ts`. -/
def readPrivateKeyPemCached (config : GitHubAppRuntimeConfig)
    (deps : GitHubAppRuntimeDeps) (st : GitHubAppRuntimeState)
    (nowMs : Int) : Except Str (Str × GitHubAppRuntimeState) :=
  match st.cachedPrivateKey with
  | some kv =>
    if nowMs - kv.2 <
        config.privateKeyCacheTtlMs.getD PRIVATE_KEY_CACHE_TTL_MS then
      .ok (kv.1, st)
    else readPrivateKeyFresh config deps st nowMs
  | none => readPrivateKeyFresh config deps st nowMs

/-- The cache-miss path of `mintInstallationToken`: read the key, build
the app JWT, exchange it, and fill the token cache. -/
def mintFresh (config : GitHubAppRuntimeConfig)
    (deps : GitHubAppRuntimeDeps) (st : GitHubAppRuntimeState)
    (nowMs : Int) (installationId : Rat) :
    Except Str (Str × GitHubAppRuntimeState) := do
  let (privateKeyPem, st2) ← readPrivateKeyPemCached config deps st nowMs
  let appJwt := deps.buildAppJwt config.appId privateKeyPem
  let token := deps.createInstallationAccessTokenAt st2.exchanges
    installationId appJwt
  .ok (token.token,
    { st2 with
        exchanges := st2.exchanges + 1
        installationTokenCache :=
          mapSet st2.installationTokenCache installationId token })

/-- `mintInstallationToken` of `createGitHubAppRuntime` from
`handler.ts`.  `Number.isInteger` on a rational is a denominator of 1. -/
def mintInstallationToken (config : GitHubAppRuntimeConfig)
    (deps : GitHubAppRuntimeDeps) (st : GitHubAppRuntimeState)
    (nowMs : Int) (installationId : Rat) :
    Except Str (Str × GitHubAppRuntimeState) :=
  if installationId.den ≠ 1 ∨ installationId ≤ 0 then
    .error "installation id must be positive integer".data
  else
    match mapGet st.installationTokenCache installationId with
    | some cachedToken =>
      if config.tokenRefreshBufferMs.getD TOKEN_REFRESH_BUFFER_MS <
          cachedToken.expiresAtMs - nowMs then
        .ok (cachedToken.token, st)
      else mintFresh config deps st nowMs installationId
    | none => mintFresh config deps st nowMs installationId

/-- C5: from a cold state, the first mint reads the key and performs
exchange 0; a second call for the same id while the token's remaining
validity strictly exceeds the refresh buffer returns the identical token
with the state unchanged — the exchange count stays 1; a third call at or
past expiry-minus-buffer (with the key still within its TTL) performs
exactly exchange 1 and returns the newly minted token. -/
theorem c5_token_cache (config : GitHubAppRuntimeConfig)
    (deps : GitHubAppRuntimeDeps) (installationId : Rat) (t1 t2 t3 : Int)
    (key0 : Str) (tok0 tok1 : InstallationAccessToken)
    (hden : installationId.den = 1) (hpos : 0 < installationId)
    (hkey0 : jsTrim (deps.readPrivateKeyPemAt 0) = key0) (hne : key0 ≠ [])
    (htok0 : deps.createInstallationAccessTokenAt 0 installationId
      (deps.buildAppJwt config.appId key0) = tok0)
    (htok1 : deps.createInstallationAccessTokenAt 1 installationId
      (deps.buildAppJwt config.appId key0) = tok1)
    (hwin2 : config.tokenRefreshBufferMs.getD TOKEN_REFRESH_BUFFER_MS <
      tok0.expiresAtMs - t2)
    (hwin3 : tok0.expiresAtMs - t3 ≤
      config.tokenRefreshBufferMs.getD TOKEN_REFRESH_BUFFER_MS)
    (httl : t3 - t1 < config.privateKeyCacheTtlMs.getD
      PRIVATE_KEY_CACHE_TTL_MS) :
    mintInstallationToken config deps ⟨[], none, 0, 0⟩ t1 installationId =
      .ok (tok0.token, ⟨[(installationId, tok0)], some (key0, t1), 1, 1⟩) ∧
    mintInstallationToken config deps
        ⟨[(installationId, tok0)], some (key0, t1), 1, 1⟩ t2 installationId =
      .ok (tok0.token, ⟨[(installationId, tok0)], some (key0, t1), 1, 1⟩) ∧
    mintInstallationToken config deps
        ⟨[(installationId, tok0)], some (key0, t1), 1, 1⟩ t3 installationId =
      .ok (tok1.token, ⟨[(installationId, tok1)], some (key0, t1), 1, 2⟩) := by
  have hguard : ¬ (installationId.den ≠ 1 ∨ installationId ≤ 0) := by
    push_neg
    exact ⟨hden, hpos⟩
  refine ⟨?_, ?_, ?_⟩
  · unfold mintInstallationToken
    rw [if_neg hguard]
    show mintFresh config deps ⟨[], none, 0, 0⟩ t1 installationId = _
    unfold mintFresh readPrivateKeyPemCached readPrivateKeyFresh
    simp only [hkey0]
    rw [if_neg hne, bind_ok, htok0]
    rfl
  · unfold mintInstallationToken
    rw [if_neg hguard]
    simp only [mapGet_cons_self]
    rw [if_pos hwin2]
  · unfold mintInstallationToken
    rw [if_neg hguard]
    simp only [mapGet_cons_self]
    rw [if_neg (by omega)]
    unfold mintFresh readPrivateKeyPemCached
    simp only []
    rw [if_pos httl, bind_ok, htok1]
    simp only [mapSet_cons_self]

/-- Concrete configuration for the C5 witness. -/
def c5config : GitHubAppRuntimeConfig :=
  ⟨"app".data, "pkey".data, none, none⟩

/-- Concrete oracles for the C5 witness: a constant key and constant
exchange result. -/
def c5deps : GitHubAppRuntimeDeps :=
  ⟨fun _ => "K".data, fun appId key => appId ++ key,
   fun _ _ _ => ⟨"T".data, 200000⟩⟩

/-- The token the C5 witness mints. -/
def c5tok : InstallationAccessToken := ⟨"T".data, 200000⟩

/-- Witness for C5: mints at times 0, 100000 (inside the window) and
150000 (past expiry minus buffer, key TTL not yet reached). -/
theorem c5_token_cache_witness :
    mintInstallationToken c5config c5deps ⟨[], none, 0, 0⟩ 0 5 =
      .ok (c5tok.token, ⟨[(5, c5tok)], some ("K".data, 0), 1, 1⟩) ∧
    mintInstallationToken c5config c5deps
        ⟨[(5, c5tok)], some ("K".data, 0), 1, 1⟩ 100000 5 =
      .ok (c5tok.token, ⟨[(5, c5tok)], some ("K".data, 0), 1, 1⟩) ∧
    mintInstallationToken c5config c5deps
        ⟨[(5, c5tok)], some ("K".data, 0), 1, 1⟩ 150000 5 =
      .ok (c5tok.token, ⟨[(5, c5tok)], some ("K".data, 0), 1, 2⟩) :=
  c5_token_cache c5config c5deps 5 0 100000 150000 "K".data c5tok c5tok
    (by decide) (by decide) rfl (by decide) rfl rfl (by decide) (by decide)
    (by decide)


/-! ## CloudFormation deploy (claim C9)

`deployStack` from `cloudformation.ts`.  The AWS client is an oracle:
`describeAt i` is the result of the `i`-th `DescribeStacksCommand` (a
stack list, or a thrown message), and the create/update commands either
succeed or throw.  The `Date.now()` polling loop of
`waitForTerminalStatus` becomes a poll budget. -/

/-- The fields of a CloudFormation `Output` entry. -/
structure Output where
  outputKey : Option Str
  outputValue : Option Str
  deriving DecidableEq, Repr

/-- The fields of a described stack that `deployStack` reads. -/
structure StackDescription where
  stackStatus : Option Str
  outputs : Option (List Output)
  deriving DecidableEq, Repr

/-- The CloudFormation client as an oracle over its three commands. -/
structure StackClient where
  describeAt : Nat → Except Str (List StackDescription)
  createStack : Except Str Unit
  updateStack : Except Str Unit

/-- JS `String.includes(pat)` for a non-empty pattern. -/
def strIncludes (pat : Str) : Str → Bool
  | [] => pat.isPrefixOf []
  | c :: rest => pat.isPrefixOf (c :: rest) || strIncludes pat rest

/-- JS `String.endsWith(pat)`. -/
def strEndsWith (pat s : Str) : Bool := pat.reverse.isPrefixOf s.reverse

/-- `SUCCESS_STATES` from `cloudformation.ts`. -/
def SUCCESS_STATES : List Str :=
  ["CREATE_COMPLETE".data, "UPDATE_COMPLETE".data]

/-- `FAILURE_STATES` from `cloudformation.ts`. -/
def FAILURE_STATES : List Str :=
  ["CREATE_FAILED".data, "ROLLBACK_COMPLETE".data, "ROLLBACK_FAILED".data,
   "DELETE_FAILED".data, "UPDATE_ROLLBACK_FAILED".data,
   "UPDATE_ROLLBACK_COMPLETE".data, "UPDATE_FAILED".data]

/-- `classifyStackStatus` from `cloudformation.ts`. -/
inductive StackStatusKind where
  | success
  | failure
  | inProgress
  deriving DecidableEq, Repr

/-- `classifyStackStatus` from `cloudformation.ts`. -/
def classifyStackStatus (status : Str) : StackStatusKind :=
  if SUCCESS_STATES.contains status then .success
  else if FAILURE_STATES.contains status then .failure
  else .inProgress

/-- `stackExists` from `cloudformation.ts`: a describe failure whose
message contains `does not exist` means the stack is absent; any other
failure is rethrown.  Returns the next describe index alongside. -/
def stackExists (client : StackClient) (calls : Nat) :
    Except Str (Bool × Nat) :=
  match client.describeAt calls with
  | .ok _ => .ok (true, calls + 1)
  | .error message =>
    if strIncludes "does not exist".data message then .ok (false, calls + 1)
    else .error message

/-- `getStackStatus` from `cloudformation.ts`: a missing first stack or a
falsy `StackStatus` is an error. -/
def getStackStatus (client : StackClient) (stackName : Str) (calls : Nat) :
    Except Str (Str × Nat) :=
  match client.describeAt calls with
  | .error message => .error message
  | .ok stackList =>
    match stackList.head? with
    | none => .error ("Cannot read stack status: ".data ++ stackName)
    | some stack =>
      match stack.stackStatus with
      | none => .error ("Cannot read stack status: ".data ++ stackName)
      | some status =>
        if status = [] then
          .error ("Cannot read stack status: ".data ++ stackName)
        else .ok (status, calls + 1)

/-- `getOutputs` from `cloudformation.ts`: `Stacks?.[0]?.Outputs ?? []`. -/
def getOutputs (client : StackClient) (calls : Nat) :
    Except Str (List Output × Nat) :=
  match client.describeAt calls with
  | .error message => .error message
  | .ok stackList =>
    .ok (((stackList.head?).bind (fun s => s.outputs)).getD [], calls + 1)

/-- `waitForTerminalStatus` from `cloudformation.ts`, the timed polling
loop as a poll budget: exhaustion is the timeout error. -/
def waitForTerminalStatus (client : StackClient) (stackName : Str) :
    Nat → Nat → Except Str (Str × Nat)
  | 0, _ => .error ("Timed out waiting for stack ".data ++ stackName)
  | fuel + 1, calls => do
    let (status, calls2) ← getStackStatus client stackName calls
    match classifyStackStatus status with
    | .success => .ok (status, calls2)
    | .failure => .error ("Stack failed: ".data ++ status)
    | .inProgress => waitForTerminalStatus client stackName fuel calls2

/-- `DeployStackResult` from `cloudformation.ts` (the `action` union as a
string). -/
structure DeployStackResult where
  action : Str
  status : Str
  outputs : List Output
  deriving DecidableEq, Repr

/-- `deployStack` from `cloudformation.ts`. -/
def deployStack (client : StackClient) (stackName : Str) (pollFuel : Nat) :
    Except Str DeployStackResult := do
  let (stackFound, calls) ← stackExists client 0
  if !stackFound then do
    let _ ← client.createStack
    let (status, calls2) ← waitForTerminalStatus client stackName
      pollFuel calls
    let (outputs, _) ← getOutputs client calls2
    .ok ⟨"create".data, status, outputs⟩
  else do
    let (current, calls2) ← getStackStatus client stackName calls
    if strEndsWith "_IN_PROGRESS".data current then
      .error ("Stack ".data ++ stackName ++ " currently ".data ++ current)
    else
      match client.updateStack with
      | .error message =>
        if strIncludes "No updates are to be performed".data message then do
          let (outputs, _) ← getOutputs client calls2
          .ok ⟨"noop".data, current, outputs⟩
        else .error message
      | .ok _ => do
        let (status, calls3) ← waitForTerminalStatus client stackName
          pollFuel calls2
        let (outputs, _) ← getOutputs client calls3
        .ok ⟨"update".data, status, outputs⟩

/-- C9: deploying against an existing stack whose current status is
stable (not `_IN_PROGRESS`), when the update call throws: a message
containing `No updates are to be performed` yields a `noop` result
carrying the current status — not an error — while any other update
failure is rethrown unchanged. -/
theorem c9_noop_update (client : StackClient) (stackName : Str)
    (pollFuel : Nat) (current : Str) (outputs : List Output) (message : Str)
    (hdesc0 : ∃ stackList, client.describeAt 0 = .ok stackList)
    (hstatus : getStackStatus client stackName 1 = .ok (current, 2))
    (hstable : strEndsWith "_IN_PROGRESS".data current = false)
    (hupd : client.updateStack = .error message)
    (houtputs : getOutputs client 2 = .ok (outputs, 3)) :
    deployStack client stackName pollFuel =
      if strIncludes "No updates are to be performed".data message
      then .ok ⟨"noop".data, current, outputs⟩
      else .error message := by
  obtain ⟨stackList, hd0⟩ := hdesc0
  unfold deployStack stackExists
  rw [hd0, bind_ok]
  show (Bind.bind (getStackStatus client stackName 1) _) = _
  rw [hstatus, bind_ok]
  show (if strEndsWith "_IN_PROGRESS".data current = true then _ else _) = _
  rw [if_neg (by simp [hstable]), hupd]
  show (if strIncludes "No updates are to be performed".data message = true
    then Bind.bind (getOutputs client 2) _ else Except.error message) = _
  by_cases hmsg : strIncludes "No updates are to be performed".data message
  · rw [if_pos hmsg, if_pos hmsg, houtputs, bind_ok]
  · rw [if_neg hmsg, if_neg hmsg]

/-- The described stack for the C9 witness. -/
def c9stack : StackDescription :=
  ⟨some "UPDATE_COMPLETE".data, some [⟨some "k".data, some "v".data⟩]⟩

/-- The CloudFormation client oracle for the C9 witness: every describe
returns the same stable stack, and the update call reports that there is
nothing to change. -/
def c9client : StackClient :=
  ⟨fun _ => .ok [c9stack], .ok (),
   .error "No updates are to be performed.".data⟩

/-- Witness for C9: the no-changes update yields a `noop` carrying the
current status. -/
theorem c9_noop_update_witness :
    deployStack c9client "s".data 3 =
      if strIncludes "No updates are to be performed".data
          "No updates are to be performed.".data
      then .ok ⟨"noop".data, "UPDATE_COMPLETE".data,
        [⟨some "k".data, some "v".data⟩]⟩
      else .error "No updates are to be performed.".data :=
  c9_noop_update c9client "s".data 3 "UPDATE_COMPLETE".data
    [⟨some "k".data, some "v".data⟩] "No updates are to be performed.".data
    ⟨[c9stack], rfl⟩ rfl (by decide) rfl rfl


/-! ## Webhook record handling (claim C6)

`handleRecord` and its helpers from the webhook lambda.  The platform
`JSON.parse`, the base64 decode, the octokit signature verification, the
CloudFormation manifest fetch, the task-environment construction and the
ECS `runTask` response are the handler's awaited or external stages; they
enter as oracles in `HandlerDeps`, and the control flow around them — the
translation target of this section — is taken from the source.  Header
maps carry `string | undefined` values; a stored `undefined` and an
absent key are indistinguishable to every read the handler performs, so
the normalized map is a `Params`. -/

/-- `isHeaderMap` from `types.ts`: a record all of whose values are
strings (a parsed JSON value is never `undefined`). -/
def isHeaderMap (value : Json) : Bool :=
  value.isRecord &&
    value.jsEntries.all (fun kv =>
      match kv.2 with
      | .jstr _ => true
      | _ => false)

/-- `isQueueEnvelope` from `types.ts`. -/
def isQueueEnvelope (value : Json) : Bool :=
  if !value.isRecord then false
  else if (match value.jsGet "rawBodyB64".data with
    | none => false
    | some (.jstr _) => false
    | some _ => true) then false
  else if (match value.jsGet "headers".data with
    | none => false
    | some h => !isHeaderMap h) then false
  else true

/-- `isGitHubPayload` from `types.ts`. -/
def isGitHubPayload (value : Json) : Bool := value.isRecord

/-- `QueueEnvelope` from `types.ts`. -/
structure QueueEnvelope where
  rawBodyB64 : Option Str
  headers : Option (List (Str × Option Str))
  deriving DecidableEq, Repr

/-- The `QueueEnvelope` fields of a value that passed `isQueueEnvelope`. -/
def toQueueEnvelope (value : Json) : QueueEnvelope :=
  ⟨match value.jsGet "rawBodyB64".data with
    | some (.jstr s) => some s
    | _ => none,
   match value.jsGet "headers".data with
    | some h => some (h.jsEntries.map (fun kv =>
        (kv.1, match kv.2 with
          | .jstr s => some s
          | _ => none)))
    | none => none⟩

/-- `parseJson` from `parse-json.ts`, over a platform `JSON.parse`
oracle: a parse failure and a failed validation throw different
messages. -/
def parseJson (parse : Str → Option Json) (raw : Str) (validate : Json → Bool)
    (ctx : String) : Except Str Json :=
  match parse raw with
  | none => .error ("invalid JSON for ".data ++ ctx.data)
  | some parsed =>
    if !validate parsed then .error ("invalid ".data ++ ctx.data)
    else .ok parsed

/-- JS `String.indexOf(pat)` for a non-empty pattern. -/
def jsIndexOf (pat : Str) : Str → Option Nat
  | [] => if pat.isPrefixOf [] then some 0 else none
  | c :: rest =>
    if pat.isPrefixOf (c :: rest) then some 0
    else (jsIndexOf pat rest).map (fun n => n + 1)

/-- JS `String.split(sep)` for a non-empty separator, fuelled by the
string length. -/
def splitOnStrAux (sep : Str) : Nat → Str → Str → List Str
  | _, acc, [] => [acc.reverse]
  | 0, acc, s => [acc.reverse ++ s]
  | fuel + 1, acc, c :: rest =>
    if sep.isPrefixOf (c :: rest) then
      acc.reverse :: splitOnStrAux sep fuel [] ((c :: rest).drop sep.length)
    else splitOnStrAux sep fuel (c :: acc) rest

/-- JS `String.split(sep)`. -/
def splitOnStr (s sep : Str) : List Str := splitOnStrAux sep s.length [] s

/-- `parseLegacyHeaders` from the webhook lambda.  The JS object is kept
as its entry list; a repeated key keeps both entries, which the last-wins
normalization reads identically to the JS overwrite. -/
def parseLegacyHeaders (value : Str) : List (Str × Option Str) :=
  (splitOnStr value ", ".data).foldl
    (fun headers part =>
      match jsIndexOf "=".data part with
      | none => headers
      | some index =>
        let key := jsTrim (part.take index)
        if key = [] then headers
        else headers ++ [(key, some (jsTrim (part.drop (index + 1))))])
    []

/-- `parseLegacyEnvelope` from the webhook lambda. -/
def parseLegacyEnvelope (body : Str) : Option QueueEnvelope :=
  let prefixStr := "\x7brawBodyB64=".data
  let headerMarker := ", headers=\x7b".data
  if !prefixStr.isPrefixOf body then none
  else if !strEndsWith "\x7d\x7d".data body then none
  else
    match jsIndexOf headerMarker body with
    | none => none
    | some markerIndex =>
      let rawBodyB64 :=
        jsTrim ((body.drop prefixStr.length).take
          (markerIndex - prefixStr.length))
      let headerPayload :=
        (body.drop (markerIndex + headerMarker.length)).take
          (body.length - 2 - (markerIndex + headerMarker.length))
      let headers := parseLegacyHeaders headerPayload
      some ⟨if 0 < rawBodyB64.length then some rawBodyB64 else none,
        some headers⟩

/-- `parseEnvelope` from the webhook lambda: the JSON form with the
legacy fallback, and `invalid queue envelope` when both fail. -/
def parseEnvelope (parse : Str → Option Json) (body : Str) :
    Except Str QueueEnvelope :=
  match parseJson parse body isQueueEnvelope "queue envelope" with
  | .ok v => .ok (toQueueEnvelope v)
  | .error _ =>
    match parseLegacyEnvelope body with
    | some parsed => .ok parsed
    | none => .error "invalid queue envelope".data

/-- JS `toLowerCase` on the ASCII header names this handler reads. -/
def jsToLower (s : Str) : Str := s.map Char.toLower

/-- Write one key with a possibly-undefined value (JS object property
assignment; assigning `undefined` still shadows an earlier value). -/
def setParamOpt (values : Params) (key : Str) (v : Option Str) : Params :=
  fun q => if q = key then v else values q

/-- `normalizeHeaders` from the webhook lambda. -/
def normalizeHeaders (headers : Option (List (Str × Option Str))) : Params :=
  (headers.getD []).foldl
    (fun result kv => setParamOpt result (jsToLower kv.1) kv.2)
    (fun _ => none)

/-- JS truthiness of a `string | undefined`. -/
def jsTruthyStr : Option Str → Bool
  | none => false
  | some v => !v.isEmpty

/-- The `required` list of `listMissingWebhookHeaders`. -/
def REQUIRED_WEBHOOK_HEADERS : List Str :=
  ["x-hub-signature-256".data, "x-github-event".data,
   "x-github-delivery".data]

/-- `listMissingWebhookHeaders` from the webhook lambda. -/
def listMissingWebhookHeaders (headers : Params) : List Str :=
  REQUIRED_WEBHOOK_HEADERS.filter (fun nm => !jsTruthyStr (headers nm))

/-- `WebhookMeta` from the webhook lambda. -/
structure WebhookMeta where
  signature : Str
  githubEvent : Str
  deliveryId : Str
  deriving DecidableEq, Repr

/-- `readWebhookMeta` from the webhook lambda. -/
def readWebhookMeta (headers : Params) : Option WebhookMeta :=
  if 0 < (listMissingWebhookHeaders headers).length then none
  else
    let signature := headers "x-hub-signature-256".data
    let githubEvent := headers "x-github-event".data
    let deliveryId := headers "x-github-delivery".data
    if !jsTruthyStr signature || !jsTruthyStr githubEvent ||
        !jsTruthyStr deliveryId then none
    else some ⟨signature.getD [], githubEvent.getD [], deliveryId.getD []⟩

/-- `verifyWebhookBody` from the webhook lambda, over the octokit
verification oracle. -/
def verifyWebhookBody (verify : Str → Str → Bool)
    (rawBody signature : Str) : Except Str Unit :=
  if verify rawBody signature then .ok ()
  else .error "invalid webhook signature".data

/-- The webhook lambda's external stages: platform `JSON.parse`, base64
decode, octokit verification, the manifest fetch
(`loadWorkersManifest`), the task-environment construction
(`buildTaskEnvironments`, which can itself throw), and the ECS `runTask`
response. -/
structure HandlerDeps where
  parse : Str → Option Json
  b64ToUtf8 : Str → Str
  verify : Str → Str → Bool
  loadManifest : Except Str (Option WorkerManifest)
  buildEnvs : Json → WebhookMeta → Option WorkerManifest →
    Except Str (List TaskEnv)
  send : TaskEnv → RunTaskResponse

/-- How `handleRecord` finishes when it does not throw. -/
inductive RecordOutcome where
  | skippedMissingHeaders (missing : List Str)
  | noMatch
  | dispatched (environments : List TaskEnv)
  deriving DecidableEq, Repr

/-- `handleRecord` from the webhook lambda, in source order: envelope,
base64 body, payload parse, header normalization, the missing-header
skip, signature verification, manifest load, environment construction,
the no-match return, and the dispatch loop. -/
def handleRecord (D : HandlerDeps) (body : Str) :
    Except Str RecordOutcome := do
  let envelope ← parseEnvelope D.parse body
  let rawBody := D.b64ToUtf8 (envelope.rawBodyB64.getD [])
  let payload ← parseJson D.parse rawBody isGitHubPayload "github payload"
  let headers := normalizeHeaders envelope.headers
  match readWebhookMeta headers with
  | none => .ok (.skippedMissingHeaders (listMissingWebhookHeaders headers))
  | some webhookMeta => do
    let _ ← verifyWebhookBody D.verify rawBody webhookMeta.signature
    let workers ← D.loadManifest
    let environments ← D.buildEnvs payload webhookMeta workers
    if environments.length = 0 then .ok .noMatch
    else
      match dispatchEnvironments D.send environments with
      | (_, .error e) => .error e
      | (attempted, .ok _) => .ok (.dispatched attempted)

/-- `handler` from the webhook lambda: `for (const record of event.Records
?? []) await handleRecord(record.body)`, with the per-record outcomes
collected. -/
def handler (D : HandlerDeps) : List Str → Except Str (List RecordOutcome)
  | [] => .ok []
  | body :: rest => do
    let outcome ← handleRecord D body
    let restOutcomes ← handler D rest
    .ok (outcome :: restOutcomes)


/-- A headers map with no missing required header leaves `readWebhookMeta`
on its `some` branch, so a `none` result forces a non-empty missing
list. -/
theorem readWebhookMeta_none_missing {headers : Params}
    (h : readWebhookMeta headers = none) :
    0 < (listMissingWebhookHeaders headers).length := by
  by_contra hlen
  have hmiss : listMissingWebhookHeaders headers = [] := by
    cases hx : listMissingWebhookHeaders headers with
    | nil => rfl
    | cons a t => rw [hx] at hlen; simp at hlen
  have htr : ∀ nm ∈ REQUIRED_WEBHOOK_HEADERS,
      jsTruthyStr (headers nm) = true := by
    intro nm hnm
    by_contra hf
    have hmem : nm ∈ listMissingWebhookHeaders headers := by
      apply List.mem_filter.mpr
      refine ⟨hnm, ?_⟩
      simp only [Bool.not_eq_true] at hf
      simp [hf]
    rw [hmiss] at hmem
    simp at hmem
  unfold readWebhookMeta at h
  rw [hmiss] at h
  have h1 := htr "x-hub-signature-256".data (by decide)
  have h2 := htr "x-github-event".data (by decide)
  have h3 := htr "x-github-delivery".data (by decide)
  simp [h1, h2, h3] at h

/-- C6 (amended): for every message whose envelope parses and whose
decoded body parses as a GitHub payload, a missing required header makes
`handleRecord` finish as the non-fatal missing-headers skip — no error,
and the result does not depend on the verification, manifest,
environment-construction or dispatch oracles, which is to say none of
them is consulted. -/
theorem c6_missing_headers_skip (parse : Str → Option Json)
    (b64 : Str → Str) (verify : Str → Str → Bool)
    (loadManifest : Except Str (Option WorkerManifest))
    (buildEnvs : Json → WebhookMeta → Option WorkerManifest →
      Except Str (List TaskEnv))
    (send : TaskEnv → RunTaskResponse) (body : Str)
    (envelope : QueueEnvelope)
    (hEnv : parseEnvelope parse body = .ok envelope)
    (hPayload : ∃ payload,
      parseJson parse (b64 (envelope.rawBodyB64.getD []))
        isGitHubPayload "github payload" = .ok payload)
    (hMeta : readWebhookMeta (normalizeHeaders envelope.headers) = none) :
    handleRecord ⟨parse, b64, verify, loadManifest, buildEnvs, send⟩ body =
      .ok (.skippedMissingHeaders
        (listMissingWebhookHeaders (normalizeHeaders envelope.headers))) ∧
    0 < (listMissingWebhookHeaders
      (normalizeHeaders envelope.headers)).length := by
  obtain ⟨payload, hpay⟩ := hPayload
  refine ⟨?_, readWebhookMeta_none_missing hMeta⟩
  unfold handleRecord
  simp only [hEnv, bind_ok, hpay, hMeta]

/-- The queue body for the C6 counterexample: a JSON envelope whose
`rawBodyB64` decodes to a non-JSON body, with no headers at all. -/
def c6body : Str :=
  encodeJ (.jobj (JsonObj.ofEntries [("rawBodyB64".data, .jstr "x".data)]))

/-- The oracles for the C6 counterexample: the model JSON codec and an
identity base64 decode; the later stages are never reached. -/
def c6deps : HandlerDeps :=
  ⟨modelParse, fun s => s, fun _ _ => true, .ok none,
   fun _ _ _ => .ok [], fun _ => ⟨none, 1⟩⟩

/-- C6 as stated fails: this message's envelope headers lack all three
required headers, yet handling it throws `invalid JSON for github
payload` — the payload parse precedes the header check — instead of
finishing as a non-fatal skip. -/
theorem c6_missing_headers_counterexample :
    parseEnvelope modelParse c6body = .ok ⟨some "x".data, none⟩ ∧
    readWebhookMeta (normalizeHeaders
      ((⟨some "x".data, none⟩ : QueueEnvelope).headers)) = none ∧
    handleRecord c6deps c6body =
      .error "invalid JSON for github payload".data :=
  ⟨rfl, rfl, rfl⟩

/-- Witness for C6: a message whose decoded body is an (empty) GitHub
payload record and whose envelope carries no headers is skipped with all
three required headers reported missing. -/
theorem c6_missing_headers_skip_witness :
    handleRecord ⟨modelParse, fun s => s, fun _ _ => true, .ok none,
        fun _ _ _ => .ok [], fun _ => ⟨none, 1⟩⟩
      (encodeJ (.jobj (JsonObj.ofEntries
        [("rawBodyB64".data, .jstr (encodeJ (.jobj JsonObj.nil)))]))) =
      .ok (.skippedMissingHeaders
        (listMissingWebhookHeaders (normalizeHeaders
          ((⟨some (encodeJ (.jobj JsonObj.nil)), none⟩ :
            QueueEnvelope).headers)))) ∧
    0 < (listMissingWebhookHeaders (normalizeHeaders
      ((⟨some (encodeJ (.jobj JsonObj.nil)), none⟩ :
        QueueEnvelope).headers))).length :=
  c6_missing_headers_skip modelParse (fun s => s) (fun _ _ => true)
    (.ok none) (fun _ _ _ => .ok []) (fun _ => ⟨none, 1⟩)
    (encodeJ (.jobj (JsonObj.ofEntries
      [("rawBodyB64".data, .jstr (encodeJ (.jobj JsonObj.nil)))])))
    ⟨some (encodeJ (.jobj JsonObj.nil)), none⟩ rfl
    ⟨.jobj JsonObj.nil, rfl⟩ rfl


/-! ## Trim normalization of the worker parser (claim C10) -/

/-- Inversion of a successful `Except` bind. -/
theorem bind_eq_ok {ε α β : Type} {m : Except ε α} {f : α → Except ε β}
    {b : β} (h : Bind.bind m f = .ok b) : ∃ a, m = .ok a ∧ f a = .ok b := by
  cases m with
  | ok a => exact ⟨a, rfl, h⟩
  | error e => exact absurd h (by simp [Bind.bind, Except.bind])

/-- `readOptionalString` only returns absent or trim-fixed strings. -/
theorem readOptionalString_ok {v : Option Json} {label : Str}
    {o : Option Str} (h : readOptionalString v label = .ok o) :
    wfOptStr o = true := by
  cases v with
  | none =>
    injection h with h
    subst h
    rfl
  | some j =>
    cases j with
    | jstr s =>
      simp only [readOptionalString] at h
      by_cases hn : jsTrim s = []
      · rw [if_pos hn] at h
        exact absurd h (by simp)
      · rw [if_neg hn] at h
        injection h with h
        subst h
        simp [wfOptStr, trimFixed, jsTrim_idem, hn]
    | null => exact absurd h (by simp [readOptionalString])
    | jbool b => exact absurd h (by simp [readOptionalString])
    | jnum q => exact absurd h (by simp [readOptionalString])
    | jarr xs => exact absurd h (by simp [readOptionalString])
    | jobj fs => exact absurd h (by simp [readOptionalString])

/-- `readNonEmptyString` only returns trim-fixed strings. -/
theorem readNonEmptyString_ok {v : Option Json} {label : Str} {s : Str}
    (h : readNonEmptyString v label = .ok s) : trimFixed s = true := by
  unfold readNonEmptyString at h
  obtain ⟨o, ho, h2⟩ := bind_eq_ok h
  cases o with
  | some t =>
    injection h2 with h2
    subst h2
    simpa [wfOptStr] using readOptionalString_ok ho
  | none => exact absurd h2 (by simp)

/-- `parseWorkerId` only returns trim-fixed strings. -/
theorem parseWorkerId_ok {v : Option Json} {label : Str} {s : Str}
    (h : parseWorkerId v label = .ok s) : trimFixed s = true := by
  unfold parseWorkerId at h
  obtain ⟨t, ht, h2⟩ := bind_eq_ok h
  by_cases hp : workerIdPattern t
  · rw [if_pos hp] at h2
    injection h2 with h2
    subst h2
    exact readNonEmptyString_ok ht
  · rw [if_neg hp] at h2
    exact absurd h2 (by simp)

/-- Every string `readStringEntries` returns is trim-fixed. -/
theorem readStringEntries_ok {label : Str} :
    ∀ {l : List Json} {i : Nat} {out : List Str},
      readStringEntries label l i = .ok out → out.all trimFixed = true := by
  intro l
  induction l with
  | nil =>
    intro i out h
    injection h with h
    subst h
    rfl
  | cons e rest ih =>
    intro i out h
    unfold readStringEntries at h
    obtain ⟨s, hs, h2⟩ := bind_eq_ok h
    obtain ⟨t, ht, h3⟩ := bind_eq_ok h2
    injection h3 with h3
    subst h3
    simp only [List.all_cons, Bool.and_eq_true]
    exact ⟨readNonEmptyString_ok hs, ih ht⟩

/-- `readOptionalStringArray` only returns absent or trim-fixed lists. -/
theorem readOptionalStringArray_ok {v : Option Json} {label : Str}
    {o : Option (List Str)} (h : readOptionalStringArray v label = .ok o) :
    wfOptStrList o = true := by
  cases v with
  | none =>
    injection h with h
    subst h
    rfl
  | some j =>
    cases j with
    | jarr xs =>
      unfold readOptionalStringArray at h
      obtain ⟨entries, he, h2⟩ := bind_eq_ok h
      injection h2 with h2
      subst h2
      simpa [wfOptStrList] using readStringEntries_ok he
    | null => exact absurd h (by simp [readOptionalStringArray])
    | jbool b => exact absurd h (by simp [readOptionalStringArray])
    | jnum q => exact absurd h (by simp [readOptionalStringArray])
    | jstr s => exact absurd h (by simp [readOptionalStringArray])
    | jobj fs => exact absurd h (by simp [readOptionalStringArray])

/-- `parseRuntimeAgent` passes its input through. -/
theorem parseRuntimeAgent_ok {v : Option Str} {label : Str} {o : Option Str}
    (h : parseRuntimeAgent v label = .ok o) : o = v := by
  cases v with
  | none => injection h with h; exact h.symm
  | some s =>
    simp only [parseRuntimeAgent] at h
    by_cases hs : s = "claude".data ∨ s = "opencode".data
    · rw [if_pos hs] at h
      injection h with h
      exact h.symm
    · rw [if_neg hs] at h
      exact absurd h (by simp)

/-- `parseRuntimeMode` passes its input through. -/
theorem parseRuntimeMode_ok {v : Option Str} {label : Str} {o : Option Str}
    (h : parseRuntimeMode v label = .ok o) : o = v := by
  cases v with
  | none => injection h with h; exact h.symm
  | some s =>
    simp only [parseRuntimeMode] at h
    by_cases hs : s = "comment-only".data ∨ s = "apply".data
    · rw [if_pos hs] at h
      injection h with h
      exact h.symm
    · rw [if_neg hs] at h
      exact absurd h (by simp)

/-- `readRecordEntries` returns exactly the entry list it was given, with
each value unwrapped from its string node — values verbatim. -/
theorem readRecordEntries_ok {label : Str} :
    ∀ {es : List (Str × Json)} {out : List (Str × Str)},
      readRecordEntries label es = .ok out →
      es = out.map (fun kv => (kv.1, Json.jstr kv.2)) := by
  intro es
  induction es with
  | nil =>
    intro out h
    injection h with h
    subst h
    rfl
  | cons e rest ih =>
    intro out h
    obtain ⟨k, v⟩ := e
    cases v with
    | jstr s =>
      unfold readRecordEntries at h
      obtain ⟨t, ht, h2⟩ := bind_eq_ok h
      injection h2 with h2
      subst h2
      simp only [List.map_cons]
      rw [← ih ht]
    | null => exact absurd h (by simp [readRecordEntries])
    | jbool b => exact absurd h (by simp [readRecordEntries])
    | jnum q => exact absurd h (by simp [readRecordEntries])
    | jarr xs => exact absurd h (by simp [readRecordEntries])
    | jobj fs => exact absurd h (by simp [readRecordEntries])

/-- A present record returned by `readOptionalStringRecord` is the entry
list of the raw record value, values verbatim. -/
theorem readOptionalStringRecord_ok {v : Option Json} {label : Str}
    {entries : List (Str × Str)}
    (h : readOptionalStringRecord v label = .ok (some entries)) :
    ∃ ev, v = some ev ∧
      ev.jsEntries = entries.map (fun kv => (kv.1, Json.jstr kv.2)) := by
  cases v with
  | none =>
    injection h with h
    exact absurd h (by simp)
  | some j =>
    simp only [readOptionalStringRecord] at h
    by_cases hr : j.isRecord
    · rw [if_pos hr] at h
      obtain ⟨es, hes, h2⟩ := bind_eq_ok h
      injection h2 with h2
      injection h2 with h2
      subst h2
      exact ⟨j, rfl, readRecordEntries_ok hes⟩
    · rw [if_neg hr] at h
      exact absurd h (by simp)


/-- The C10 normalization property of an optional trigger filter. -/
def trimNormalizedFilterOpt : Option WorkerTriggerFilter → Bool
  | none => true
  | some f => wfOptStrList f.repository && wfOptStrList f.baseBranches &&
      wfOptStrList f.headBranches

/-- The C10 normalization property of a trigger: every string field is
its own trim and non-empty. -/
def trimNormalizedTrigger (t : WorkerTrigger) : Bool :=
  trimFixed t.provider && trimFixed t.event && wfOptStrList t.actions &&
  trimNormalizedFilterOpt t.filter

/-- The C10 normalization property of a worker definition: every string
field except the `runtime.env` values is its own trim and non-empty. -/
def trimNormalizedWorker (w : WorkerDefinition) : Bool :=
  trimFixed w.metadata.id && trimFixed w.metadata.type &&
  wfOptStr w.metadata.description && wfOptStr w.metadata.version &&
  w.triggers.all trimNormalizedTrigger &&
  wfOptStr w.runtime.agent && wfOptStr w.runtime.mode &&
  trimFixed w.runtime.prompt

/-- `parseMetadata` only returns trim-normalized string fields. -/
theorem parseMetadata_ok {v : Option Json} {label : Str}
    {m : WorkerMetadata} (h : parseMetadata v label = .ok m) :
    trimFixed m.id = true ∧ trimFixed m.type = true ∧
    wfOptStr m.description = true ∧ wfOptStr m.version = true := by
  cases v with
  | none => exact absurd h (by simp [parseMetadata])
  | some j =>
    simp only [parseMetadata] at h
    by_cases hr : j.isRecord
    · rw [if_pos hr] at h
      obtain ⟨id, hid, h⟩ := bind_eq_ok h
      obtain ⟨ty, hty, h⟩ := bind_eq_ok h
      obtain ⟨de, hde, h⟩ := bind_eq_ok h
      obtain ⟨en, hen, h⟩ := bind_eq_ok h
      obtain ⟨ve, hve, h⟩ := bind_eq_ok h
      injection h with h
      subst h
      exact ⟨parseWorkerId_ok hid, readNonEmptyString_ok hty,
        readOptionalString_ok hde, readOptionalString_ok hve⟩
    · rw [if_neg hr] at h
      exact absurd h (by simp)

/-- `parseTriggerFilter` only returns trim-normalized string lists. -/
theorem parseTriggerFilter_ok {v : Option Json} {label : Str}
    {o : Option WorkerTriggerFilter} (h : parseTriggerFilter v label = .ok o) :
    trimNormalizedFilterOpt o = true := by
  cases v with
  | none =>
    injection h with h
    subst h
    rfl
  | some j =>
    simp only [parseTriggerFilter] at h
    by_cases hr : j.isRecord
    · rw [if_pos hr] at h
      obtain ⟨re, hre, h⟩ := bind_eq_ok h
      obtain ⟨ba, hba, h⟩ := bind_eq_ok h
      obtain ⟨he, hhe, h⟩ := bind_eq_ok h
      obtain ⟨dr, hdr, h⟩ := bind_eq_ok h
      injection h with h
      subst h
      simp only [trimNormalizedFilterOpt, Bool.and_eq_true]
      exact ⟨⟨readOptionalStringArray_ok hre,
        readOptionalStringArray_ok hba⟩, readOptionalStringArray_ok hhe⟩
    · rw [if_neg hr] at h
      exact absurd h (by simp)

/-- `parseTrigger` only returns trim-normalized triggers. -/
theorem parseTrigger_ok {v : Json} {label : Str} {t : WorkerTrigger}
    (h : parseTrigger v label = .ok t) : trimNormalizedTrigger t = true := by
  unfold parseTrigger at h
  by_cases hr : v.isRecord
  · rw [if_pos hr] at h
    obtain ⟨pr, hpr, h⟩ := bind_eq_ok h
    by_cases hg : pr = "github".data
    · rw [if_pos hg] at h
      obtain ⟨ev, hev, h⟩ := bind_eq_ok h
      obtain ⟨ac, hac, h⟩ := bind_eq_ok h
      obtain ⟨fi, hfi, h⟩ := bind_eq_ok h
      injection h with h
      subst h
      unfold trimNormalizedTrigger
      simp only [Bool.and_eq_true]
      exact ⟨⟨⟨readNonEmptyString_ok hpr, readNonEmptyString_ok hev⟩,
        by simpa [wfOptStrList] using readOptionalStringArray_ok hac⟩,
        parseTriggerFilter_ok hfi⟩
    · rw [if_neg hg] at h
      exact absurd h (by simp)
  · rw [if_neg hr] at h
    exact absurd h (by simp)

/-- Every trigger `parseTriggerList` returns is trim-normalized. -/
theorem parseTriggerList_ok {label : Str} :
    ∀ {l : List Json} {i : Nat} {out : List WorkerTrigger},
      parseTriggerList label l i = .ok out →
      out.all trimNormalizedTrigger = true := by
  intro l
  induction l with
  | nil =>
    intro i out h
    injection h with h
    subst h
    rfl
  | cons e rest ih =>
    intro i out h
    unfold parseTriggerList at h
    obtain ⟨t, ht, h2⟩ := bind_eq_ok h
    obtain ⟨ts, hts, h3⟩ := bind_eq_ok h2
    injection h3 with h3
    subst h3
    simp only [List.all_cons, Bool.and_eq_true]
    exact ⟨parseTrigger_ok ht, ih hts⟩

/-- Every trigger `parseTriggers` returns is trim-normalized. -/
theorem parseTriggers_ok {v : Option Json} {label : Str}
    {ts : List WorkerTrigger} (h : parseTriggers v label = .ok ts) :
    ts.all trimNormalizedTrigger = true := by
  cases v with
  | none => exact absurd h (by simp [parseTriggers])
  | some j =>
    cases j with
    | jarr xs =>
      simp only [parseTriggers] at h
      cases hl : xs.toList with
      | nil =>
        rw [hl] at h
        exact absurd h (by simp)
      | cons e rest =>
        rw [hl] at h
        exact parseTriggerList_ok h
    | null => exact absurd h (by simp [parseTriggers])
    | jbool b => exact absurd h (by simp [parseTriggers])
    | jnum q => exact absurd h (by simp [parseTriggers])
    | jstr s => exact absurd h (by simp [parseTriggers])
    | jobj fs => exact absurd h (by simp [parseTriggers])

/-- `parseRuntime` trim-normalizes every string field except the `env`
values, which come verbatim from the raw record's entries. -/
theorem parseRuntime_ok {v : Option Json} {label : Str} {r : WorkerRuntime}
    (h : parseRuntime v label = .ok r) :
    wfOptStr r.agent = true ∧ wfOptStr r.mode = true ∧
    trimFixed r.prompt = true ∧
    ∀ entries, r.env = some entries →
      ∃ rtJson ev, v = some rtJson ∧ rtJson.jsGet "env".data = some ev ∧
        ev.jsEntries = entries.map (fun kv => (kv.1, Json.jstr kv.2)) := by
  cases v with
  | none => exact absurd h (by simp [parseRuntime])
  | some j =>
    simp only [parseRuntime] at h
    by_cases hr : j.isRecord
    · rw [if_pos hr] at h
      obtain ⟨pr, hpr, h⟩ := bind_eq_ok h
      obtain ⟨av, hav, h⟩ := bind_eq_ok h
      obtain ⟨mv, hmv, h⟩ := bind_eq_ok h
      obtain ⟨du, hdu, h⟩ := bind_eq_ok h
      obtain ⟨en, hen, h⟩ := bind_eq_ok h
      obtain ⟨ap, hap, h⟩ := bind_eq_ok h
      obtain ⟨ag, hag, h⟩ := bind_eq_ok h
      obtain ⟨mo, hmo, h⟩ := bind_eq_ok h
      injection h with h
      subst h
      refine ⟨?_, ?_, readNonEmptyString_ok hpr, ?_⟩
      · rw [show ag = av from parseRuntimeAgent_ok hag]
        exact readOptionalString_ok hav
      · rw [show mo = mv from parseRuntimeMode_ok hmo]
        exact readOptionalString_ok hmv
      · intro entries hentries
        subst hentries
        obtain ⟨ev, hev, hevEntries⟩ := readOptionalStringRecord_ok hen
        exact ⟨j, ev, rfl, hev, hevEntries⟩
    · rw [if_neg hr] at h
      exact absurd h (by simp)

/-- C10: every raw value `parseWorkerDefinition` accepts yields a
definition whose string fields — except the `runtime.env` values — equal
their own whitespace trim and are non-empty, while the `runtime.env`
values are passed through verbatim from the raw record's entries. -/
theorem c10_parse_trim_normal (value : Json) (label : Str)
    (w : WorkerDefinition) (h : parseWorkerDefinition value label = .ok w) :
    trimNormalizedWorker w = true ∧
    ∀ entries, w.runtime.env = some entries →
      ∃ rtJson ev, getF value "runtime" = some rtJson ∧
        rtJson.jsGet "env".data = some ev ∧
        ev.jsEntries = entries.map (fun kv => (kv.1, Json.jstr kv.2)) := by
  unfold parseWorkerDefinition at h
  by_cases hr : value.isRecord
  · rw [if_pos hr] at h
    obtain ⟨md, hmd, h⟩ := bind_eq_ok h
    obtain ⟨ts, hts, h⟩ := bind_eq_ok h
    obtain ⟨rt, hrt, h⟩ := bind_eq_ok h
    injection h with h
    subst h
    obtain ⟨hid, hty, hde, hve⟩ := parseMetadata_ok hmd
    have htl := parseTriggers_ok hts
    obtain ⟨hag, hmo, hpr, henv⟩ := parseRuntime_ok hrt
    constructor
    · unfold trimNormalizedWorker
      simp only [Bool.and_eq_true]
      exact ⟨⟨⟨⟨⟨⟨⟨hid, hty⟩, hde⟩, hve⟩, htl⟩, hag⟩, hmo⟩, hpr⟩
    · exact henv
  · rw [if_neg hr] at h
    exact absurd h (by simp)


/-- A raw worker value whose string fields carry surrounding whitespace,
with one `env` entry whose value has surrounding whitespace. -/
def c10raw : Json :=
  .jobj (JsonObj.ofEntries [
    ("metadata".data, .jobj (JsonObj.ofEntries [
      ("id".data, .jstr " a ".data),
      ("type".data, .jstr " b ".data)])),
    ("triggers".data, .jarr (JsonArr.ofList [
      .jobj (JsonObj.ofEntries [
        ("provider".data, .jstr " github ".data),
        ("event".data, .jstr " push ".data)])])),
    ("runtime".data, .jobj (JsonObj.ofEntries [
      ("prompt".data, .jstr " do it ".data),
      ("env".data, .jobj (JsonObj.ofEntries
        [("K".data, .jstr " v ".data)]))]))])

/-- What `parseWorkerDefinition` makes of `c10raw`: all string fields
trimmed, the `env` value untouched. -/
def c10w : WorkerDefinition :=
  ⟨⟨"a".data, "b".data, none, some true, none⟩,
   [⟨"github".data, "push".data, none, none⟩],
   ⟨none, none, "do it".data, none, none, some [("K".data, " v ".data)]⟩⟩

/-- Witness for C10: the whitespacey raw worker parses to its trimmed
normal form with the `env` value passed through verbatim. -/
theorem c10_parse_trim_normal_witness :
    trimNormalizedWorker c10w = true ∧
    ∀ entries, c10w.runtime.env = some entries →
      ∃ rtJson ev, getF c10raw "runtime" = some rtJson ∧
        rtJson.jsGet "env".data = some ev ∧
        ev.jsEntries = entries.map (fun kv => (kv.1, Json.jstr kv.2)) :=
  c10_parse_trim_normal c10raw "w".data c10w rfl

end Skipper
